import Mathlib

/-!
Verification development for the interpolation module `wradlib/ipol.py`.

The module transfers values given at "source" points to "target" points
(nearest-neighbour and inverse-distance-weighted strategies over a spatial
index), provides a NaN-tolerant driver `interpolate`, and a polar
clutter-filling routine `interpolate_polar`.

Modelling conventions (shallow embedding):

* Machine floats are modelled by exact rationals.  A value is `Option ℚ`:
  `some q` is a finite float, `none` is a non-finite value (NaN).  Arithmetic
  propagates `none` exactly as NaN propagates through numpy arithmetic.
* Neighbour distances returned by the spatial index are `Option ℚ` as well,
  with `none` standing for the infinite distance that `scipy.spatial.cKDTree`
  reports for missing neighbours (fewer sources than requested neighbours).
* `numpy` arrays are modelled by `NDArray`: a row-major flat data list
  together with a shape.  Fancy indexing, `np.dot`, broadcasting of
  assignments and `np.where` are modelled with numpy's documented semantics;
  operations that raise in numpy return `Except.error`.
* `scipy.spatial.cKDTree(src).query(trg, k)` is an external collaborator of
  the module.  It is modelled by `kquery`: per target the `k` nearest source
  points sorted by ascending distance.  Sorting compares squared Euclidean
  distances (the ordering is the same as for true Euclidean distances, and it
  is exact over ℚ, whereas the true distance involves a square root); ties
  are broken deterministically by the smaller source index, a legitimate
  instance of the index's arbitrary-but-deterministic ordering.  Consequently
  the distance values stored on an interpolator built by `nearestInit` or
  `idwInit` are squared Euclidean distances; all theorems about evaluation
  are stated in terms of the stored distances, exactly as the code compares
  them, so no theorem depends on the choice of squaring.
* Python exceptions are modelled by `Except.error` with a short tag naming
  the exception class (the spec's taxonomy): "ShapeError" for the
  `_check_shape` assertion, "IndexError", "ValueError",
  "ZeroDivisionError", "NameError" for the reference to the undefined
  variable `ix_valid`, and "UnsupportedRankError" for the `Exception`
  raised on ≥3-dimensional value arrays.
-/

/-- A float value: `some q` is a finite value, `none` is NaN/non-finite. -/
abbrev FVal := Option ℚ

/-- A neighbour distance: `some q` is a finite distance, `none` is the
infinite distance `cKDTree.query` reports for a missing neighbour. -/
abbrev DVal := Option ℚ

/-- A point: coordinates of one source or target location. -/
abbrev Pt := List ℚ

/-- Addition with NaN propagation (`none` absorbs, as NaN does in numpy). -/
def fadd : FVal → FVal → FVal
  | some a, some b => some (a + b)
  | _, _ => none

/-- Multiplication of a float value by a finite weight, with NaN
propagation (note `0 * NaN = NaN` in numpy, matched by `Option.map`). -/
def fmulQ (w : ℚ) : FVal → FVal := Option.map (w * ·)

/-- Sum of a list of float values, with NaN propagation. -/
def fsum (l : List FVal) : FVal := l.foldl fadd (some 0)

/-- Dot product of a finite weight vector with a vector of float values. -/
def fdot (w : List ℚ) (l : List FVal) : FVal :=
  fsum ((w.zip l).map (fun p => fmulQ p.1 p.2))

/-- A numpy array: row-major flat data plus a shape.  Well-formed arrays
satisfy `data.length = shape.prod`; theorems assume it where needed. -/
structure NDArray where
  shape : List ℕ
  data : List FVal
deriving Repr, DecidableEq

/-- Size of one "row" of an array: the product of the trailing axes. -/
def rowSize (shape : List ℕ) : ℕ := shape.tail.prod

/-- Row `i` of an array (slice along the first axis), as a flat list. -/
def getRow (a : NDArray) (i : ℕ) : List FVal :=
  (a.data.drop (i * rowSize a.shape)).take (rowSize a.shape)

/-- Entry at (row `i`, flat trailing offset `j`). -/
def getEntry (a : NDArray) (i j : ℕ) : FVal :=
  a.data.getD (i * rowSize a.shape + j) none

/-- Row `i` of `a` with a bounds check: numpy raises `IndexError` for an
out-of-range index. -/
def getRowE (a : NDArray) (i : ℕ) : Except String (List FVal) :=
  match a.shape with
  | [] => .error "IndexError"
  | n :: _ => if i < n then .ok (getRow a i) else .error "IndexError"

/-- Fancy indexing `a[ix]` along the first axis: the selected rows, stacked.
Out-of-range indices raise `IndexError`, as in numpy. -/
def fancyRows (a : NDArray) (ix : List ℕ) : Except String NDArray :=
  match a.shape with
  | [] => .error "IndexError"
  | n :: tail =>
    if ix.all (· < n) then
      .ok ⟨ix.length :: tail, ix.flatMap (fun i => getRow a i)⟩
    else .error "IndexError"

/-- Assignment of a flat (1-D) right-hand side into an array slot of shape
`slot`, following numpy's broadcasting rule for `interpol[j] = wz.ravel()`:
a length-`L` vector broadcasts into `slot` iff `slot` is scalar and `L = 1`,
or `L` equals the last axis of `slot` (replicated over the leading axes), or
`L = 1` (stretched everywhere); otherwise numpy raises `ValueError`. -/
def broadcastFill (slot : List ℕ) (src : List FVal) : Except String (List FVal) :=
  match slot with
  | [] => if src.length = 1 then .ok src else .error "ValueError"
  | _ =>
    if src.length = slot.getLastD 1 then
      .ok (List.flatten (List.replicate slot.dropLast.prod src))
    else if src.length = 1 then
      .ok (List.replicate slot.prod (src.headD none))
    else .error "ValueError"

/-- Broadcast of two shapes (right-aligned), on reversed shape lists. -/
def bcastRev : List ℕ → List ℕ → Except String (List ℕ)
  | [], l => .ok l
  | l, [] => .ok l
  | a :: as, b :: bs => do
    let r ← bcastRev as bs
    if a = b then .ok (a :: r)
    else if a = 1 then .ok (b :: r)
    else if b = 1 then .ok (a :: r)
    else .error "ValueError"

/-- Numpy shape broadcasting; `ValueError` on incompatible shapes. -/
def bcast2 (s1 s2 : List ℕ) : Except String (List ℕ) :=
  (bcastRev s1.reverse s2.reverse).map List.reverse

/-- Row-major multi-index of flat position `n` in shape `s`. -/
def unrank : List ℕ → ℕ → List ℕ
  | [], _ => []
  | _ :: rest, n => n / rest.prod :: unrank rest (n % rest.prod)

/-- Row-major flat position of multi-index `idx` in shape `s`. -/
def rankIdx (s idx : List ℕ) : ℕ :=
  (s.zip idx).foldl (fun acc p => acc * p.1 + p.2) 0

/-- Projection of a broadcast multi-index onto an operand of shape `s`:
keep the trailing `s.length` coordinates and zero those on stretched
(size-1) axes. -/
def projIdx (mi : List ℕ) (s : List ℕ) : List ℕ :=
  ((mi.drop (mi.length - s.length)).zip s).map (fun p => if p.2 = 1 then 0 else p.1)

/-- Model of `np.where(cond, np.nan, y)` for a 1-D boolean `cond`:
broadcasts `cond` against `y` (raising `ValueError` when the shapes are
incompatible) and replaces the selected entries by NaN. -/
def npWhereNan (cond : List Bool) (y : NDArray) : Except String NDArray := do
  let bs ← bcast2 [cond.length] y.shape
  .ok ⟨bs, (List.range bs.prod).map (fun n =>
    let mi := unrank bs n
    if cond.getD ((projIdx mi [cond.length]).headD 0) false then none
    else y.data.getD (rankIdx y.shape (projIdx mi y.shape)) none)⟩

/-- Model of `np.dot(w, b)` for 1-D `w`: for 1-D `b` the scalar product
(shape `[]`), for `b` of rank ≥ 2 the contraction of `w` with the
second-to-last axis of `b`; numpy raises `ValueError` when the lengths do
not match. -/
def npDot (w : List ℚ) (b : NDArray) : Except String NDArray :=
  match b.shape with
  | [] => .error "ValueError"
  | [n] =>
    if w.length = n then .ok ⟨[], [fdot w b.data]⟩ else .error "ValueError"
  | s =>
    let J := s.getLastD 1
    let K := s.dropLast.getLastD 1
    let pre := s.dropLast.dropLast
    if w.length = K then
      .ok ⟨pre ++ [J], (List.range pre.prod).flatMap (fun pi =>
        (List.range J).map (fun j =>
          fdot w ((List.range K).map (fun k =>
            b.data.getD ((pi * K + k) * J + j) none))))⟩
    else .error "ValueError"

/-- Squared Euclidean distance between two points. -/
def sqDist (a b : Pt) : ℚ := ((a.zip b).map (fun p => (p.1 - p.2) ^ 2)).sum

/-- Ordering used by the modelled spatial index: ascending distance, ties
broken by the smaller source index. -/
def pLe (a b : ℚ × ℕ) : Prop := a.1 < b.1 ∨ (a.1 = b.1 ∧ a.2 ≤ b.2)

instance : DecidableRel pLe := fun a b => by
  unfold pLe; infer_instance

instance : IsTotal (ℚ × ℕ) pLe where
  total a b := by
    rcases lt_trichotomy a.1 b.1 with h | h | h
    · exact Or.inl (Or.inl h)
    · rcases Nat.le_total a.2 b.2 with h2 | h2
      · exact Or.inl (Or.inr ⟨h, h2⟩)
      · exact Or.inr (Or.inr ⟨h.symm, h2⟩)
    · exact Or.inr (Or.inl h)

instance : IsTrans (ℚ × ℕ) pLe where
  trans a b c hab hbc := by
    rcases hab with h1 | ⟨e1, l1⟩ <;> rcases hbc with h2 | ⟨e2, l2⟩
    · exact Or.inl (h1.trans h2)
    · exact Or.inl (e2 ▸ h1)
    · exact Or.inl (e1 ▸ h2)
    · exact Or.inr ⟨e1.trans e2, l1.trans l2⟩

/-- All (distance, source index) pairs for one target, sorted ascending. -/
def sortedPairs (src : List Pt) (t : Pt) : List (ℚ × ℕ) :=
  List.insertionSort pLe (src.enum.map (fun p => (sqDist t p.2, p.1)))

/-- Model of `cKDTree(src).query(t, k)`: the `k` nearest source points,
as (distance, source index) pairs sorted ascending; when fewer than `k`
sources exist the result is padded with infinite distances and the
out-of-range index `src.length`, exactly as `cKDTree.query` reports
missing neighbours. -/
def kquery (src : List Pt) (k : ℕ) (t : Pt) : List (DVal × ℕ) :=
  ((sortedPairs src t).take k).map (fun p => ((some p.1 : DVal), p.2))
    ++ List.replicate (k - src.length) ((none : DVal), src.length)

/-- State of a constructed `Nearest` interpolator: the counts remembered by
`__init__` and the single-nearest query results `self.dists`, `self.ix`. -/
structure Nearest where
  numtargets : ℕ
  numsources : ℕ
  dists : List DVal
  ix : List ℕ
deriving Repr, DecidableEq

/-- `Nearest.__init__`: remember the counts and query the tree with `k=1`
for every target. -/
def nearestInit (src trg : List Pt) : Nearest :=
  let q := trg.map (fun t => (kquery src 1 t).headD (none, 0))
  ⟨trg.length, src.length, q.map Prod.fst, q.map Prod.snd⟩

/-- Does the stored distance exceed `maxdist`?  An infinite distance
exceeds every threshold. -/
def distExceeds (m : ℚ) : DVal → Bool
  | none => true
  | some q => decide (m < q)

/-- `Nearest.__call__`: check the value array against the recorded source
count (`_check_shape`; its assertion failure is the spec's ShapeError),
gather `vals[self.ix]`, and when `maxdist` is given apply
`np.where(self.dists > maxdist, np.nan, out)`. -/
def nearestCall (nn : Nearest) (vals : NDArray) (maxdist : Option ℚ) :
    Except String NDArray := do
  match vals.shape with
  | [] => Except.error "IndexError"
  | n :: _ =>
    if n = nn.numsources then do
      let out ← fancyRows vals nn.ix
      match maxdist with
      | none => pure out
      | some m => npWhereNan (nn.dists.map (distExceeds m)) out
    else Except.error "ShapeError"

/-- State of a constructed `Idw` interpolator. -/
structure Idw where
  numtargets : ℕ
  numsources : ℕ
  nnearest : ℕ
  p : ℕ
  dists : List (List DVal)
  ix : List (List ℕ)
deriving Repr, DecidableEq

/-- `Idw.__init__`: remember the parameters and query the tree with
`k = nnearest` for every target.  (The source reshapes the query result to
two dimensions when `nnearest == 1`; rows are lists here, so the reshape is
structural.)  The inverse-distance exponent `p` is a float in the source
(default `2.`); it is modelled as a natural exponent, which covers the
default and keeps the weight arithmetic exact. -/
def idwInit (src trg : List Pt) (nnearest : ℕ) (p : ℕ) : Idw :=
  let q := trg.map (fun t => kquery src nnearest t)
  ⟨trg.length, src.length, nnearest, p,
    q.map (fun r => r.map Prod.fst), q.map (fun r => r.map Prod.snd)⟩

/-- The near-zero tolerance `1e-10` of `Idw.__call__`. -/
def idwTol : ℚ := 1 / 10 ^ 10

/-- The `valid_dists` filter of `Idw.__call__`: keep the (distance, index)
pairs with finite distance. -/
def finitePairs (dist : List DVal) (ix : List ℕ) : List (ℚ × ℕ) :=
  (dist.zip ix).filterMap (fun di => di.1.map (fun q => (q, di.2)))

/-- The `wz.ravel()` value of one iteration of the target loop of
`Idw.__call__`: filter the finite neighbours and pick the branch
(`nnearest == 1` / coincident target / inverse-distance weighting).
Evaluating `dist[0]` on an empty filtered row raises `IndexError`.  The
power operation on the distances is written with an explicit recursive
power so the branch is kernel-computable. -/
def idwWzr (nn p : ℕ) (vals : NDArray) (dist : List DVal) (ix : List ℕ) :
    Except String (List FVal) :=
  let fp := finitePairs dist ix
  if nn = 1 then do
    let wz ← fancyRows vals (fp.map Prod.snd)
    pure wz.data
  else
    match fp.head? with
    | none => Except.error "IndexError"
    | some (d0, i0) =>
      if d0 < idwTol then
        getRowE vals i0
      else do
        let w := fp.map (fun q => 1 / q.1 ^ p)
        let wn := w.map (fun x => x / w.sum)
        let m ← fancyRows vals (fp.map Prod.snd)
        let wz ← npDot wn m
        pure wz.data

/-- One iteration of the target loop of `Idw.__call__`: compute
`wz.ravel()` and assign it into the output row slot (numpy broadcast). -/
def idwRow (nn p : ℕ) (vals : NDArray) (dist : List DVal) (ix : List ℕ) :
    Except String (List FVal) :=
  idwWzr nn p vals dist ix >>= broadcastFill vals.shape.tail

/-- `Idw.__call__`: note that, unlike `Nearest.__call__` and
`Linear.__call__`, it performs no `_check_shape` call.  The output array is
preallocated with NaN and shape `len(self.dists) :: vals.shape.tail`; the
loop runs over `zip(self.dists, self.ix)` and rows beyond the zip length
keep their NaN prefill. -/
def idwCall (ip : Idw) (vals : NDArray) : Except String NDArray :=
  match vals.shape with
  | [] => Except.error "IndexError"
  | _ :: tail => do
    let rows ← (ip.dists.zip ip.ix).mapM (fun di => idwRow ip.nnearest ip.p vals di.1 di.2)
    let nanRow : List FVal := List.replicate tail.prod none
    let padded := rows ++ List.replicate (ip.dists.length - rows.length) nanRow
    pure ⟨ip.dists.length :: tail, padded.flatten⟩

/-- An interpolation strategy handed to the drivers: `run src trg vals`
models constructing `Interpolator(src, trg)` and immediately evaluating it
on `vals`, which is the only way the drivers use a strategy. -/
structure Strategy where
  run : List Pt → List Pt → NDArray → Except String NDArray

/-- The `Nearest` class as a strategy (evaluated without `maxdist`). -/
def nearestStrategy : Strategy :=
  ⟨fun s t v => nearestCall (nearestInit s t) v none⟩

/-- The `Idw` class as a strategy with parameters `nnearest` and `p`. -/
def idwStrategy (nnearest p : ℕ) : Strategy :=
  ⟨fun s t v => idwCall (idwInit s t nnearest p) v⟩

/-- Fancy indexing on a plain list (`src[ix_valid]` on a coordinate array):
numpy raises `IndexError` for an out-of-range index. -/
def gatherE {α : Type} [Inhabited α] (xs : List α) (ix : List ℕ) :
    Except String (List α) :=
  if ix.all (· < xs.length) then .ok (ix.map (fun i => xs.getD i default))
  else .error "IndexError"

/-- Scatter assignment `xs[ix] = upd` on a flat array: the right-hand side
must have exactly one entry per index or a single entry to broadcast,
otherwise numpy raises `ValueError`. -/
def scatterE (xs : List FVal) (ix : List ℕ) (upd : List FVal) :
    Except String (List FVal) :=
  if ix.all (· < xs.length) then
    if upd.length = ix.length then
      .ok ((ix.zip upd).foldl (fun acc p => acc.set p.1 p.2) xs)
    else if upd.length = 1 then
      .ok (ix.foldl (fun acc i => acc.set i (upd.headD none)) xs)
    else .error "ValueError"
  else .error "IndexError"

/-- Model of `np.delete(xs, ix)` (after ravel): drop the entries whose
position is listed in `ix`; `n` is the position of the head of `xs`. -/
def deleteIdxAux {α : Type} (ix : List ℕ) : ℕ → List α → List α
  | _, [] => []
  | n, a :: as =>
    if n ∈ ix then deleteIdxAux ix (n + 1) as
    else a :: deleteIdxAux ix (n + 1) as

/-- Model of `np.delete(xs, ix)` on a flat list. -/
def deleteIdx {α : Type} (xs : List α) (ix : List ℕ) : List α :=
  deleteIdxAux ix 0 xs

/-- Positions of the non-finite entries of a flat list, ascending (the
order `np.where` reports them in). -/
def nanPositions (l : List FVal) : List ℕ :=
  (List.range l.length).filter (fun i => (l.getD i none).isNone)

/-- The driver `interpolate(src, trg, vals, Interpolator, ...)`.

* 1-D values: drop the non-finite source values and their coordinates
  (`ix_valid`), build the interpolator on the reduced sources and evaluate
  it on the reduced values.
* 2-D values: build on the full sources and evaluate once; then for every
  column `i` that has NaN in the result, rebuild on that column's finite
  source rows restricted to the broken targets, and overwrite the broken
  entries.  (The source's index bookkeeping presumes a 2-D result array;
  a result of any other rank is not modelled and reports an error.)
* other ranks: the source tests `np.any(np.isnan(vals))` and raises its
  "can only deal with NaN values if vals has less than 3 dimension"
  exception when the test is FALSE, i.e. on NaN-free input — the condition
  is inverted with respect to its own message and to the comment on the
  other branch; on NaN-containing input the other branch dereferences the
  variable `ix_valid`, which is only ever assigned in the 1-D branch, so a
  `NameError` is raised there instead. -/
def interpolate (src trg : List Pt) (vals : NDArray) (strat : Strategy) :
    Except String NDArray :=
  match vals.shape with
  | [n] => do
    let ixValid := (List.range n).filter (fun i => (vals.data.getD i none).isSome)
    let srcR ← gatherE src ixValid
    let valsR : NDArray := ⟨[ixValid.length], ixValid.map (fun i => vals.data.getD i none)⟩
    strat.run srcR trg valsR
  | [nsrc, ncols] => do
    let result ← strat.run src trg vals
    match result.shape with
    | [rn, rc] => do
      let nanPos := (List.range (rn * rc)).filter (fun i => (result.data.getD i none).isNone)
      let rowI := nanPos.map (fun i => i / rc)
      let colI := nanPos.map (fun i => i % rc)
      let cols := (List.range rc).filter (fun i => i ∈ colI)
      let final ← cols.foldlM (fun (res : NDArray) i => do
        let colvals := (List.range nsrc).map (fun r => vals.data.getD (r * ncols + i) none)
        let ixGood := (List.range nsrc).filter (fun r => (colvals.getD r none).isSome)
        let broken := ((rowI.zip colI).filter (fun p => p.2 = i)).map Prod.fst
        let srcG ← gatherE src ixGood
        let trgB ← gatherE trg broken
        let valsG : NDArray := ⟨[ixGood.length, 1], ixGood.map (fun r => colvals.getD r none)⟩
        let tmp ← strat.run srcG trgB valsG
        let upd ← scatterE res.data (broken.map (fun t => t * rc + i)) tmp.data
        pure ⟨res.shape, upd⟩) result
      pure final
    | _ => Except.error "ValueError"
  | _ =>
    if ¬ (vals.data.any (fun v => v.isNone)) then
      Except.error "UnsupportedRankError"
    else
      Except.error "NameError"

/-- The Cartesian bin-centre coordinates of `interpolate_polar`: the source
computes `binx = cos(angle) * range`, `biny = sin(angle) * range` with
`range = range-index + 0.5` and `angle = azimuth-index * 2π / num-azimuths`.
The sine and cosine are transcendental, so the projection is supplied as a
parameter `binCo azimuth-index range-index`; every theorem below holds for
an arbitrary projection, and concrete instances use azimuth counts for
which the true cosines and sines are exactly 0 or ±1. -/
def polarBins (binCo : ℕ → ℕ → Pt) (na nr : ℕ) : List Pt :=
  (List.range na).flatMap (fun a => (List.range nr).map (fun r => binCo a r))

/-- The effective mask of `interpolate_polar`: when no mask entry is set
(`not np.any(mask)`, which also covers `mask = None`), the code falls back
to `np.ma.getmaskarray(data)`, which is all-`False` for a plain array
(masked arrays are not modelled; an explicit mask plays their role). -/
def effMask (mask : Option (List Bool)) (n : ℕ) : List Bool :=
  match mask with
  | some m => if m.any id then m else List.replicate n false
  | none => List.replicate n false

/-- Flat positions of the masked (to-be-interpolated) bins, ascending. -/
def clutterIx (m : List Bool) (n : ℕ) : List ℕ :=
  (List.range n).filter (fun i => m.getD i false)

/-- The convenience function `interpolate_polar(data, mask, Interpolator)`:
derive the effective mask, project every bin to Cartesian coordinates,
split the bins into sources (unmasked) and targets (masked), interpolate
the targets through the NaN-tolerant driver, and finally re-interpolate
every entry that is still NaN with `Nearest` against the same source set.
`360. / data.shape[0]` raises `ZeroDivisionError` when there are no
azimuth bins, and indexing `data.shape[1]` fails for non-2-D data. -/
def interpolate_polar (binCo : ℕ → ℕ → Pt) (data : NDArray)
    (mask : Option (List Bool)) (strat : Strategy) : Except String NDArray :=
  match data.shape with
  | [na, nr] =>
    if na = 0 then Except.error "ZeroDivisionError"
    else do
      let m := effMask mask (na * nr)
      let clutter := clutterIx m (na * nr)
      let bins := polarBins binCo na nr
      let srcCoord := deleteIdx bins clutter
      let trgCoord ← gatherE bins clutter
      let valuesList : NDArray := ⟨[(deleteIdx data.data clutter).length], deleteIdx data.data clutter⟩
      let filling ← interpolate srcCoord trgCoord valuesList strat
      let filled ← scatterE data.data clutter filling.data
      if filled.any (fun v => v.isNone) then do
        let trg2 ← gatherE bins (nanPositions filled)
        let filling2 ← interpolate srcCoord trg2 valuesList nearestStrategy
        let filled2 ← scatterE filled (nanPositions filled) filling2.data
        pure ⟨[na, nr], filled2⟩
      else pure ⟨[na, nr], filled⟩
  | _ => Except.error "IndexError"

/-- Claim C1 (code bug in the source): the rank-≥3 branch of `interpolate`
raises its "can only deal with NaN values if vals has less than 3
dimension" exception precisely when the value array contains NO NaN — the
branch condition is inverted relative to the claim, to the exception's own
message, and to the comment in the source — and on a value array that does
contain NaN it instead dereferences the undefined variable `ix_valid`
(a `NameError`), never performing the claimed full-array pass.  Evaluated
here at a conforming rank-3 array without and with a NaN entry. -/
theorem c1_higher_rank_driver_inverted :
    interpolate [[0], [1]] [[1 / 2]] ⟨[2, 1, 1], [some 1, some 2]⟩ (idwStrategy 2 2) =
      .error "UnsupportedRankError" ∧
    interpolate [[0], [1]] [[1 / 2]] ⟨[2, 1, 1], [some 1, none]⟩ (idwStrategy 2 2) =
      .error "NameError" := by
  constructor <;> with_unfolding_all rfl

/-- Claim C2 (code bug in the source): `Idw.__call__` never calls
`_check_shape`, unlike `Nearest.__call__` and `Linear.__call__` and unlike
the base-class contract, so evaluating an `Idw` interpolator recorded with
2 source points on a value array of first-axis length 3 returns a result
instead of failing with a ShapeError. -/
theorem c2_idw_call_skips_shape_check :
    (idwInit [[0], [1]] [[0]] 1 2).numsources = 2 ∧
    idwCall (idwInit [[0], [1]] [[0]] 1 2) ⟨[3], [some 5, some 6, some 7]⟩ =
      .ok ⟨[1], [some 5]⟩ := by
  constructor <;> with_unfolding_all rfl

/-- Claim C3, counterexample: a 1×2 polar field whose single unmasked bin
holds a NaN value.  The mask has an unmasked (source) bin, yet
`interpolate_polar` raises an `IndexError` (the driver drops the lone
non-finite source value, builds `Nearest` on an empty source set, and
indexes an empty value array) instead of returning a finite-valued array.
The bin projection is the true one for a single azimuth bin
(cos 0 = 1, sin 0 = 0). -/
theorem c3_counterexample :
    interpolate_polar (fun _ r => [(r : ℚ) + 1 / 2, 0])
      ⟨[1, 2], [none, some 5]⟩ (some [false, true]) nearestStrategy =
      .error "IndexError" := by
  with_unfolding_all rfl

/-- Claim C7, counterexample: a 1×2 field with an empty mask but a NaN
entry is NOT returned unchanged — the completeness fallback of
`interpolate_polar` re-interpolates the NaN entry from the finite bins, so
the output differs from the input. -/
theorem c7_counterexample :
    interpolate_polar (fun _ r => [(r : ℚ) + 1 / 2, 0])
      ⟨[1, 2], [none, some 5]⟩ none nearestStrategy =
      .ok ⟨[1, 2], [some 5, some 5]⟩ ∧
    (⟨[1, 2], [some 5, some 5]⟩ : NDArray) ≠ ⟨[1, 2], [none, some 5]⟩ := by
  refine ⟨by with_unfolding_all rfl, by simp⟩

/-- Claim C9, counterexample: a conforming rank-3 value array (first axis
2 = recorded source count).  `Idw.__call__` raises a `ValueError` while
assigning `wz.ravel()` (4 entries) into the output row slot of shape
(2, 2), instead of returning an output with the trailing shape
preserved. -/
theorem c9_counterexample :
    idwCall (idwInit [[0], [1]] [[0]] 1 2)
      ⟨[2, 2, 2], [some 1, some 2, some 3, some 4, some 5, some 6, some 7, some 8]⟩ =
      .error "ValueError" := by
  with_unfolding_all rfl

/-- Claim C6, counterexample: `Nearest.__call__` with a maximum-distance
threshold and a rank-2 value array (2 feature columns, 3 targets) raises a
`ValueError` — `np.where(self.dists > maxdist, np.nan, out)` broadcasts the
length-3 distance vector against the (3, 2) output and fails — instead of
assigning per-target rows or NaN. -/
theorem c6_counterexample :
    nearestCall (nearestInit [[0], [10]] [[1], [2], [3]])
      ⟨[2, 2], [some 1, some 2, some 3, some 4]⟩ (some 5) =
      .error "ValueError" := by
  with_unfolding_all rfl

/-! Helper lemmas about the modelled spatial query. -/

theorem length_sortedPairs (src : List Pt) (t : Pt) :
    (sortedPairs src t).length = src.length := by
  simp [sortedPairs]

theorem sortedPairs_sorted (src : List Pt) (t : Pt) :
    List.Sorted pLe (sortedPairs src t) :=
  List.sorted_insertionSort pLe _

theorem mem_sortedPairs_iff {src : List Pt} {t : Pt} {q : ℚ × ℕ} :
    q ∈ sortedPairs src t ↔
      q.2 < src.length ∧ q.1 = sqDist t (src.getD q.2 []) := by
  rw [sortedPairs, List.mem_insertionSort, List.mem_map]
  constructor
  · rintro ⟨⟨i, pt⟩, hi, rfl⟩
    rw [List.mk_mem_enum_iff_getElem?] at hi
    have hlt : i < src.length := by
      by_contra hge
      rw [List.getElem?_eq_none (Nat.le_of_not_lt hge)] at hi
      exact Option.noConfusion hi
    exact ⟨hlt, by simp [List.getD_eq_getElem?_getD, hi]⟩
  · rintro ⟨hlt, hd⟩
    refine ⟨(q.2, src.getD q.2 []), ?_, ?_⟩
    · rw [List.mk_mem_enum_iff_getElem?, List.getD_eq_getElem?_getD,
        List.getElem?_eq_getElem hlt, Option.getD_some]
    · obtain ⟨q1, q2⟩ := q
      simp only at hd ⊢
      exact Prod.ext hd.symm rfl

theorem sortedPairs_head_min {src : List Pt} {t : Pt} {q : ℚ × ℕ}
    {rest : List (ℚ × ℕ)} (h : sortedPairs src t = q :: rest) :
    ∀ x ∈ sortedPairs src t, pLe q x := by
  intro x hx
  rw [h] at hx
  rcases List.mem_cons.mp hx with rfl | hx
  · exact Or.inr ⟨rfl, le_refl _⟩
  · exact List.rel_of_sorted_cons (h ▸ sortedPairs_sorted src t) x hx

theorem finitePairs_map_fst_snd (l : List (DVal × ℕ)) :
    finitePairs (l.map Prod.fst) (l.map Prod.snd) =
      l.filterMap (fun di => di.1.map (fun q => (q, di.2))) := by
  rw [finitePairs, List.zip_map' Prod.fst Prod.snd]
  simp [List.filterMap_map]

theorem finitePairs_kquery (src : List Pt) (k : ℕ) (t : Pt) :
    finitePairs ((kquery src k t).map Prod.fst) ((kquery src k t).map Prod.snd) =
      (sortedPairs src t).take k := by
  rw [finitePairs_map_fst_snd, kquery]
  rw [List.filterMap_append]
  have h1 : ∀ l : List (ℚ × ℕ),
      (l.map (fun p => (((some p.1 : DVal), p.2) : DVal × ℕ))).filterMap
        (fun di => di.1.map (fun q => (q, di.2))) = l := by
    intro l; induction l with
    | nil => rfl
    | cons a l ih => simp [ih]
  have h2 : (List.replicate (k - src.length) (((none : DVal), src.length) : DVal × ℕ)).filterMap
      (fun di => di.1.map (fun q => (q, di.2))) = [] := by
    induction (k - src.length) with
    | zero => rfl
    | succ n ih => simp only [List.replicate_succ, List.filterMap_cons]; exact ih
  rw [h1, h2, List.append_nil]

/-! Helper lemmas about the array model and `Except`-monadic iteration. -/

theorem mapM_ok_forall₂ {α β : Type} {f : α → Except String β} :
    ∀ {l : List α} {r : List β}, l.mapM f = .ok r →
      List.Forall₂ (fun a b => f a = .ok b) l r := by
  intro l
  induction l with
  | nil => intro r h; simp only [List.mapM_nil] at h; cases h; exact List.Forall₂.nil
  | cons a l ih =>
    intro r h
    rw [List.mapM_cons] at h
    cases hfa : f a with
    | error e => rw [hfa] at h; exact Except.noConfusion h
    | ok y =>
      rw [hfa] at h
      cases hfl : l.mapM f with
      | error e => rw [hfl] at h; exact Except.noConfusion h
      | ok ys =>
        rw [hfl] at h
        have h2 : Except.ok (y :: ys) = Except.ok r := h
        cases h2
        exact List.Forall₂.cons hfa (ih hfl)

theorem forall₂_mapM_ok {α β : Type} {f : α → Except String β} :
    ∀ {l : List α} {r : List β}, List.Forall₂ (fun a b => f a = .ok b) l r →
      l.mapM f = .ok r := by
  intro l r h
  induction h with
  | nil => rfl
  | cons ha _ ih =>
    rw [List.mapM_cons, ha, ih]
    rfl

theorem getRow_length {a : NDArray} {n : ℕ} {tail : List ℕ} {i : ℕ}
    (hsh : a.shape = n :: tail) (hw : a.data.length = a.shape.prod)
    (hi : i < n) : (getRow a i).length = tail.prod := by
  have hrs : rowSize a.shape = tail.prod := by rw [hsh]; rfl
  have hlen : a.data.length = n * tail.prod := by rw [hw, hsh, List.prod_cons]
  rw [getRow, List.length_take, List.length_drop, hrs, hlen]
  have h1 : i * tail.prod + tail.prod ≤ n * tail.prod := by
    have h2 : i + 1 ≤ n := hi
    calc i * tail.prod + tail.prod = (i + 1) * tail.prod := by ring
    _ ≤ n * tail.prod := Nat.mul_le_mul_right _ h2
  omega

theorem fancyRows_ok {a : NDArray} {n : ℕ} {tail : List ℕ} {ix : List ℕ}
    (hsh : a.shape = n :: tail) (hix : ∀ i ∈ ix, i < n) :
    fancyRows a ix = .ok ⟨ix.length :: tail, ix.flatMap (fun i => getRow a i)⟩ := by
  obtain ⟨s, d⟩ := a
  simp only at hsh
  subst hsh
  simp only [fancyRows]
  rw [if_pos]
  rw [List.all_eq_true]
  intro i hm
  exact decide_eq_true (hix i hm)

theorem prod_eq_dropLast_mul_getLastD {l : List ℕ} (h : l ≠ []) :
    l.prod = l.dropLast.prod * l.getLastD 1 := by
  conv_lhs => rw [← List.dropLast_append_getLast h]
  rw [List.prod_append, List.prod_cons, List.prod_nil, mul_one,
    List.getLastD_eq_getLast?, List.getLast?_eq_getLast l h, Option.getD_some]

theorem length_flatten_replicate {m : ℕ} {src : List FVal} :
    (List.flatten (List.replicate m src)).length = m * src.length := by
  rw [List.length_flatten, List.map_replicate, List.sum_replicate, smul_eq_mul]

theorem broadcastFill_ok_length {slot : List ℕ} {src r : List FVal}
    (h : broadcastFill slot src = .ok r) : r.length = slot.prod := by
  cases slot with
  | nil =>
    simp only [broadcastFill] at h
    split at h
    · cases h; simp_all
    · cases h
  | cons s0 srest =>
    simp only [broadcastFill] at h
    split at h
    next hlen =>
      cases h
      rw [length_flatten_replicate, hlen,
        ← prod_eq_dropLast_mul_getLastD (List.cons_ne_nil s0 srest)]
    next hlen =>
      split at h
      next hone => cases h; simp
      next => cases h

theorem broadcastFill_exact {slot : List ℕ} {src r : List FVal}
    (hlen : src.length = slot.prod)
    (h : broadcastFill slot src = .ok r) : r = src := by
  cases slot with
  | nil =>
    simp only [broadcastFill] at h
    split at h
    · cases h; rfl
    · cases h
  | cons s0 srest =>
    simp only [broadcastFill] at h
    split at h
    next hl =>
      cases h
      have hp := prod_eq_dropLast_mul_getLastD (List.cons_ne_nil s0 srest)
      rw [hlen, hp] at hl
      rcases Nat.eq_zero_or_pos ((s0 :: srest).getLastD 1) with h0 | hpos
      · have hsrc : src = [] := by
          rw [← List.length_eq_zero]
          rw [hlen, hp, h0, Nat.mul_zero]
        subst hsrc
        induction ((s0 :: srest).dropLast.prod) with
        | zero => rfl
        | succ n ih => simp_all [List.replicate_succ]
      · have h1 : (s0 :: srest).dropLast.prod = 1 := by
          rcases Nat.eq_zero_or_pos ((s0 :: srest).dropLast.prod) with hz | hq
          · rw [hz, Nat.zero_mul] at hl; omega
          · nlinarith
        rw [h1, List.replicate_one, List.flatten_cons, List.flatten_nil,
          List.append_nil]
    next =>
      split at h
      next hone =>
        cases h
        rcases src with _ | ⟨x, _ | ⟨y, rest⟩⟩
        · simp at hone
        · have : (s0 :: srest).prod = 1 := by
            rw [← hlen]; rfl
          rw [this]
          rfl
        · simp at hone
      next => cases h

theorem flatten_uniform_extract {rows : List (List FVal)} {m t : ℕ}
    (hu : ∀ r ∈ rows, r.length = m) (ht : t < rows.length) :
    (rows.flatten.drop (t * m)).take m = rows.getD t [] := by
  induction rows generalizing t with
  | nil => exact absurd ht (by simp)
  | cons r rows ih =>
    have hr : r.length = m := hu r (List.mem_cons_self r rows)
    cases t with
    | zero =>
      simp only [Nat.zero_mul, List.drop_zero, List.flatten_cons, List.getD_cons_zero]
      rw [List.take_left' hr]
    | succ t =>
      have hts : t < rows.length := by simpa using ht
      rw [List.flatten_cons, List.getD_cons_succ]
      have hdrop : (r ++ rows.flatten).drop ((t + 1) * m) = rows.flatten.drop (t * m) := by
        have : (t + 1) * m = r.length + t * m := by rw [hr]; ring
        rw [this, List.drop_append]
      rw [hdrop]
      exact ih (fun x hx => hu x (List.mem_cons_of_mem r hx)) hts

theorem except_bind_ok {α β : Type} {x : Except String α} {f : α → Except String β}
    {r : β} (h : (x >>= f) = .ok r) : ∃ y, x = .ok y ∧ f y = .ok r := by
  cases x with
  | error e => exact Except.noConfusion h
  | ok y => exact ⟨y, rfl, h⟩

theorem idwRow_ok_length {nn p : ℕ} {vals : NDArray} {dr : List DVal}
    {ir : List ℕ} {row : List FVal} (h : idwRow nn p vals dr ir = .ok row) :
    row.length = vals.shape.tail.prod := by
  unfold idwRow at h
  obtain ⟨wzr, -, hb⟩ := except_bind_ok (h := h)
  have := broadcastFill_ok_length hb
  simpa using this

theorem idwCall_ok_inv {ip : Idw} {vals : NDArray} {out : NDArray}
    {n : ℕ} {tail : List ℕ} (hsh : vals.shape = n :: tail)
    (h : idwCall ip vals = .ok out) :
    ∃ rows,
      (ip.dists.zip ip.ix).mapM (fun di => idwRow ip.nnearest ip.p vals di.1 di.2) =
        .ok rows ∧
      out = ⟨ip.dists.length :: tail,
        (rows ++ List.replicate (ip.dists.length - rows.length)
          (List.replicate tail.prod none)).flatten⟩ := by
  obtain ⟨s, d⟩ := vals
  simp only at hsh
  subst hsh
  simp only [idwCall] at h
  obtain ⟨rows, hm, hp⟩ := except_bind_ok (h := h)
  refine ⟨rows, hm, ?_⟩
  have h2 : (Except.ok (⟨ip.dists.length :: tail,
      (rows ++ List.replicate (ip.dists.length - rows.length)
        (List.replicate tail.prod none)).flatten⟩ : NDArray) :
      Except String NDArray) = Except.ok out := hp
  cases h2
  rfl

theorem idwCall_row {ip : Idw} {vals : NDArray} {out : NDArray}
    {n : ℕ} {tail : List ℕ} {t : ℕ} {dr : List DVal} {ir : List ℕ}
    (hsh : vals.shape = n :: tail)
    (h : idwCall ip vals = .ok out)
    (ht : t < (ip.dists.zip ip.ix).length)
    (hrow : (ip.dists.zip ip.ix).getD t ([], []) = (dr, ir)) :
    ∃ row, idwRow ip.nnearest ip.p vals dr ir = .ok row ∧ getRow out t = row := by
  obtain ⟨rows, hm, hout⟩ := idwCall_ok_inv hsh h
  have hf := mapM_ok_forall₂ hm
  have hlen := hf.length_eq
  have hget := (List.forall₂_iff_get.1 hf).2 t ht (by omega)
  refine ⟨rows.get ⟨t, by omega⟩, ?_, ?_⟩
  · have : (ip.dists.zip ip.ix).get ⟨t, ht⟩ = (dr, ir) := by
      rw [← hrow, List.getD_eq_getElem?_getD, List.getElem?_eq_getElem ht]
      rfl
    rw [this] at hget
    exact hget
  · subst hout
    have hall : ∀ r ∈ rows ++ List.replicate (ip.dists.length - rows.length)
        (List.replicate tail.prod none), r.length = tail.prod := by
      intro r hr
      rcases List.mem_append.1 hr with hr | hr
      · obtain ⟨⟨t', ht'⟩, rfl⟩ := List.mem_iff_get.1 hr
        have hget' := (List.forall₂_iff_get.1 hf).2 t' (by omega) ht'
        have hl2 := idwRow_ok_length hget'
        rw [hsh] at hl2
        simpa using hl2
      · rw [List.eq_of_mem_replicate hr]
        simp
    have hrs : rowSize (ip.dists.length :: tail) = tail.prod := rfl
    have htlen : t < (rows ++ List.replicate (ip.dists.length - rows.length)
        (List.replicate tail.prod none)).length := by
      rw [List.length_append]
      omega
    have := flatten_uniform_extract (m := tail.prod) hall htlen
    rw [getRow]
    simp only [hrs]
    rw [this, List.getD_append _ _ _ _ (by omega), List.getD_eq_getElem?_getD,
      List.getElem?_eq_getElem (by omega)]
    rfl

/-- Claim C4: in an IDW evaluation with `nnearest > 1`, whenever the
smallest retained (finite) neighbour distance of target `t` is below the
tolerance `1e-10`, the returned row for `t` is exactly the value row of
that nearest source — weight 1, all other neighbours ignored; in
particular a target coinciding with a source point (distance 0) receives
that source's value exactly, regardless of the power `p` or the other
neighbours.  Stated for any constructed interpolator state and any
evaluation that returns a result (all arithmetic is exact here; the
single-precision cast the source applies to its output buffer is a
separate representation issue, claim C10). -/
theorem c4_idw_coincident_passthrough
    (st : Idw) (vals : NDArray) (out : NDArray) (t : ℕ)
    (dr : List DVal) (ir : List ℕ) (d0 : ℚ) (i0 : ℕ)
    (hnn : st.nnearest ≠ 1)
    (ht : t < (st.dists.zip st.ix).length)
    (hrow : (st.dists.zip st.ix).getD t ([], []) = (dr, ir))
    (hfp : (finitePairs dr ir).head? = some (d0, i0))
    (hd : d0 < idwTol)
    (hw : vals.data.length = vals.shape.prod)
    (hcall : idwCall st vals = .ok out) :
    getRow out t = getRow vals i0 := by
  obtain ⟨s, dta⟩ := vals
  cases s with
  | nil => simp only [idwCall] at hcall; exact Except.noConfusion hcall
  | cons n tail =>
    obtain ⟨row, hr, hout⟩ := idwCall_row rfl hcall ht hrow
    rw [idwRow] at hr
    obtain ⟨wzr, hwzr, hfill⟩ := except_bind_ok (h := hr)
    rw [idwWzr] at hwzr
    simp only [if_neg hnn, hfp] at hwzr
    rw [if_pos hd] at hwzr
    simp only [getRowE] at hwzr
    split at hwzr
    next hi =>
      have h2 : (Except.ok (getRow ⟨n :: tail, dta⟩ i0) :
          Except String (List FVal)) = .ok wzr := hwzr
      cases h2
      have hlen : (getRow ⟨n :: tail, dta⟩ i0).length = tail.prod :=
        getRow_length rfl hw hi
      have hrw := @broadcastFill_exact tail _ _ hlen hfill
      rw [hout, hrw]
    next => exact Except.noConfusion hwzr

/-- Witness for C4: sources 0, 1, 5 on a line, targets 0 and 3, `k = 2`,
power 3; target 0 coincides with source 0 (stored squared distance 0 is
below the tolerance), so its output row is exactly source 0's value 7. -/
theorem c4_idw_coincident_passthrough_witness :
    (idwInit [[0], [1], [5]] [[0], [3]] 2 3).nnearest ≠ 1 ∧
    (0 : ℚ) < idwTol ∧
    getRow (⟨[2], [some 7, some (17 / 2)]⟩ : NDArray) 0 =
      getRow (⟨[3], [some 7, some 8, some 9]⟩ : NDArray) 0 := by
  refine ⟨by decide, by with_unfolding_all decide, ?_⟩
  exact c4_idw_coincident_passthrough
    (idwInit [[0], [1], [5]] [[0], [3]] 2 3)
    ⟨[3], [some 7, some 8, some 9]⟩ ⟨[2], [some 7, some (17 / 2)]⟩ 0
    [some 0, some 1] [0, 1] 0 0
    (by decide) (by with_unfolding_all decide) (by with_unfolding_all rfl)
    (by with_unfolding_all rfl) (by with_unfolding_all decide)
    (by with_unfolding_all rfl) (by with_unfolding_all rfl)

theorem gather_filter_eq {α : Type} [Inhabited α] :
    ∀ (xs : List α) (ys : List FVal), xs.length = ys.length →
      ((List.range xs.length).filter (fun i => (ys.getD i none).isSome)).map
        (fun i => xs.getD i default) =
      (xs.zip ys).filterMap (fun pv => if pv.2.isSome then some pv.1 else none) := by
  intro xs
  induction xs with
  | nil => intro ys h; rfl
  | cons x xs ih =>
    intro ys h
    cases ys with
    | nil => exact absurd h (by simp)
    | cons y ys =>
      have hlen : xs.length = ys.length := by simpa using h
      have key := ih ys hlen
      cases hy : y.isSome with
      | false =>
        simp only [List.length_cons, List.range_succ_eq_map, List.filter_cons,
          List.getD_cons_zero, hy, List.zip_cons_cons, List.filterMap_cons,
          List.filter_map, List.map_map, Function.comp_def, List.getD_cons_succ,
          Bool.false_eq_true, if_false]
        simpa using key
      | true =>
        simp only [List.length_cons, List.range_succ_eq_map, List.filter_cons,
          List.getD_cons_zero, hy, List.zip_cons_cons, List.filterMap_cons,
          List.filter_map, List.map_map, Function.comp_def, List.getD_cons_succ,
          if_true, List.map_cons]
        rw [key]

theorem zip_self_filterMap (l : List FVal) :
    (l.zip l).filterMap (fun pv => if pv.2.isSome then some pv.1 else none) =
      l.filter (fun v => v.isSome) := by
  induction l with
  | nil => rfl
  | cons x l ih =>
    rw [List.zip_cons_cons, List.filterMap_cons, List.filter_cons]
    cases hx : x.isSome with
    | false => simpa [hx] using ih
    | true => simpa [hx] using ih

/-- Claim C8: on a 1-D value array the driver `interpolate` drops exactly
the source rows holding non-finite values together with their matching
coordinates, constructs one interpolator on the reduced source set and
evaluates it against the reduced values (stated via the equivalent
zip-and-filter formulation); and concretely, for sources [[0],[1],[2]],
values [1, NaN, 3] and target [[1]] with IDW (k = 2, default power 2) the
result is 2. -/
theorem c8_driver_one_dim (src trg : List Pt) (vals : NDArray) (strat : Strategy)
    (hsh : vals.shape = [src.length]) (hn : vals.data.length = src.length) :
    (interpolate src trg vals strat =
      strat.run
        ((src.zip vals.data).filterMap (fun pv => if pv.2.isSome then some pv.1 else none))
        trg
        ⟨[(vals.data.filter (fun v => v.isSome)).length],
          vals.data.filter (fun v => v.isSome)⟩) ∧
    interpolate [[0], [1], [2]] [[1]] ⟨[3], [some 1, none, some 3]⟩ (idwStrategy 2 2) =
      .ok ⟨[1], [some 2]⟩ := by
  refine ⟨?_, by with_unfolding_all rfl⟩
  obtain ⟨s, dta⟩ := vals
  simp only at hsh hn
  subst hsh
  simp only [interpolate]
  have hbound : ∀ i ∈ (List.range src.length).filter
      (fun i => ((dta : List FVal).getD i none).isSome), i < src.length := by
    intro i hi
    have := (List.mem_filter.1 hi).1
    simpa using this
  have hg : gatherE src ((List.range src.length).filter
      (fun i => ((dta : List FVal).getD i none).isSome)) =
      .ok (((List.range src.length).filter
        (fun i => ((dta : List FVal).getD i none).isSome)).map
          (fun i => src.getD i default)) := by
    rw [gatherE, if_pos]
    rw [List.all_eq_true]
    intro i hi
    exact decide_eq_true (hbound i hi)
  rw [hg]
  have e1 : ((List.range src.length).filter
      (fun i => ((dta : List FVal).getD i none).isSome)).map
        (fun i => src.getD i default) =
      (src.zip dta).filterMap (fun pv => if pv.2.isSome then some pv.1 else none) :=
    gather_filter_eq src dta (by rw [hn])
  have e2 : ((List.range src.length).filter
      (fun i => ((dta : List FVal).getD i none).isSome)).map
        (fun i => (dta : List FVal).getD i none) =
      dta.filter (fun v => v.isSome) := by
    have h2 := gather_filter_eq (α := FVal) dta dta rfl
    rw [zip_self_filterMap] at h2
    rw [← h2, hn]
    rfl
  have e3 : ((List.range src.length).filter
      (fun i => ((dta : List FVal).getD i none).isSome)).length =
      (dta.filter (fun v => v.isSome)).length := by
    rw [← e2, List.length_map]
  show strat.run _ trg _ = _
  rw [e1, e2, e3]

/-- Witness for C8: the concrete spec example, checked against the general
statement of `c8_driver_one_dim`. -/
theorem c8_driver_one_dim_witness :
    (⟨[3], [some 1, none, some 3]⟩ : NDArray).shape =
      [([[0], [1], [2]] : List Pt).length] ∧
    interpolate [[0], [1], [2]] [[1]] ⟨[3], [some 1, none, some 3]⟩ (idwStrategy 2 2) =
      .ok ⟨[1], [some 2]⟩ :=
  ⟨by with_unfolding_all rfl,
   (c8_driver_one_dim [[0], [1], [2]] [[1]] ⟨[3], [some 1, none, some 3]⟩
      (idwStrategy 2 2) (by with_unfolding_all rfl) (by with_unfolding_all rfl)).2⟩

theorem broadcastFill_rank_le_one {tail : List ℕ} {src : List FVal}
    (hrk : tail.length ≤ 1) (hlen : src.length = tail.prod) :
    broadcastFill tail src = .ok src := by
  cases tail with
  | nil =>
    simp only [List.prod_nil] at hlen
    simp [broadcastFill, hlen]
  | cons F rest =>
    cases rest with
    | nil =>
      simp only [List.prod_cons, List.prod_nil, mul_one] at hlen
      simp [broadcastFill, hlen]
    | cons b rest => simp at hrk

theorem flatMap_uniform_length {is : List ℕ} {f : ℕ → List FVal} {m : ℕ}
    (hu : ∀ i ∈ is, (f i).length = m) :
    (is.flatMap f).length = is.length * m := by
  induction is with
  | nil => simp
  | cons i is ih =>
    rw [List.flatMap_cons, List.length_append,
      hu i (List.mem_cons_self i is),
      ih (fun j hj => hu j (List.mem_cons_of_mem i hj))]
    simp [Nat.mul_add, Nat.add_mul, Nat.mul_comm]
    ring

theorem flatMap_uniform_getD {is : List ℕ} {f : ℕ → List FVal} {m : ℕ}
    (hu : ∀ i ∈ is, (f i).length = m) :
    ∀ {k j : ℕ}, k < is.length → j < m →
      (is.flatMap f).getD (k * m + j) none = (f (is.getD k 0)).getD j none := by
  induction is with
  | nil => intro k j hk _; exact absurd hk (by simp)
  | cons i is ih =>
    intro k j hk hj
    rw [List.flatMap_cons]
    cases k with
    | zero =>
      rw [Nat.zero_mul, Nat.zero_add, List.getD_cons_zero]
      rw [List.getD_eq_getElem?_getD, List.getElem?_append_left
        (by rw [hu i (List.mem_cons_self i is)]; exact hj),
        ← List.getD_eq_getElem?_getD]
    | succ k =>
      have hlen : (f i).length = m := hu i (List.mem_cons_self i is)
      have hoff : (k + 1) * m + j = (f i).length + (k * m + j) := by
        rw [hlen]; ring
      rw [List.getD_cons_succ, List.getD_eq_getElem?_getD, hoff,
        List.getElem?_append_right (by omega), ← List.getD_eq_getElem?_getD]
      have : (f i).length + (k * m + j) - (f i).length = k * m + j := by omega
      rw [this]
      exact ih (fun x hx => hu x (List.mem_cons_of_mem i hx)) (by simpa using hk) hj

theorem getRow_getD {a : NDArray} {n : ℕ} {tail : List ℕ} {i j : ℕ}
    (hsh : a.shape = n :: tail) (hj : j < tail.prod) :
    (getRow a i).getD j none = getEntry a i j := by
  have hrs : rowSize a.shape = tail.prod := by rw [hsh]; rfl
  rw [getRow, getEntry, hrs, List.getD_eq_getElem?_getD,
    List.getElem?_take_of_lt hj, List.getElem?_drop,
    ← List.getD_eq_getElem?_getD]

theorem range_map_getD {α β : Type} (l : List α) (g : α → β) (d : α) :
    (List.range l.length).map (fun k => g (l.getD k d)) = l.map g := by
  induction l with
  | nil => rfl
  | cons x xs ih =>
    rw [List.length_cons, List.range_succ_eq_map, List.map_cons,
      List.getD_cons_zero, List.map_map]
    have : ((fun k => g ((x :: xs).getD k d)) ∘ Nat.succ) =
        (fun k => g (xs.getD k d)) := by
      funext k
      simp
    rw [this, ih, List.map_cons]

theorem npDot_rank1 {w : List ℚ} {b : NDArray} {K : ℕ}
    (hsh : b.shape = [K]) (hlen : w.length = K) :
    npDot w b = .ok ⟨[], [fdot w b.data]⟩ := by
  obtain ⟨s, d⟩ := b
  simp only at hsh
  subst hsh
  simp [npDot, hlen]

theorem npDot_rank2 {w : List ℚ} {b : NDArray} {K F : ℕ}
    (hsh : b.shape = [K, F]) (hlen : w.length = K) :
    npDot w b = .ok ⟨[F], (List.range F).map (fun j =>
      fdot w ((List.range K).map (fun k => b.data.getD (k * F + j) none)))⟩ := by
  obtain ⟨s, d⟩ := b
  simp only at hsh
  subst hsh
  simp only [npDot, List.getLastD_cons, List.getLastD_nil,
    List.dropLast_cons₂, List.dropLast_single, List.prod_nil,
    List.range_succ, List.range_zero, List.nil_append,
    List.flatMap_cons, List.flatMap_nil, List.append_nil,
    Nat.zero_mul, Nat.zero_add]
  rw [if_pos hlen]
  rw [show List.range 1 = [0] from rfl, List.flatMap_cons, List.flatMap_nil,
    List.append_nil]
  simp only [Nat.zero_mul, Nat.zero_add]

theorem drop_take_one {l : List FVal} {i : ℕ} (hi : i < l.length) :
    (l.drop i).take 1 = [l.getD i none] := by
  cases hd : l.drop i with
  | nil =>
    have := List.length_drop i l
    rw [hd] at this
    simp at this
    omega
  | cons a as =>
    have h0 : l.getD i none = a := by
      have h1 : (l.drop i)[0]? = l[i]? := by
        rw [List.getElem?_drop, Nat.add_zero]
      rw [hd] at h1
      simp only [List.getElem?_cons_zero] at h1
      rw [List.getD_eq_getElem?_getD, ← h1]
      rfl
    rw [h0]
    rfl

theorem flatMap_getRow_rank1 {vals : NDArray} {n : ℕ}
    (hsh : vals.shape = [n]) (hw : vals.data.length = vals.shape.prod)
    {is : List ℕ} (hb : ∀ i ∈ is, i < n) :
    is.flatMap (fun i => getRow vals i) =
      is.map (fun i => vals.data.getD i none) := by
  induction is with
  | nil => rfl
  | cons i is ih =>
    rw [List.flatMap_cons, List.map_cons,
      ih (fun x hx => hb x (List.mem_cons_of_mem i hx))]
    have hrow : getRow vals i = [vals.data.getD i none] := by
      have hrs : rowSize vals.shape = 1 := by rw [hsh]; rfl
      have hlen : vals.data.length = n := by
        rw [hw, hsh]
        simp
      rw [getRow, hrs, Nat.mul_one]
      exact drop_take_one (by rw [hlen]; exact hb i (List.mem_cons_self i is))
    rw [hrow]
    rfl

theorem ok_bind {α β : Type} (x : α) (f : α → Except String β) :
    ((Except.ok x : Except String α) >>= f) = f x := rfl

theorem idwWzr_weighting
    {nn p : ℕ} {vals : NDArray} {dr : List DVal} {ir : List ℕ}
    {n : ℕ} {tail : List ℕ} {d0 : ℚ} {i0 : ℕ}
    (hsh : vals.shape = n :: tail) (hrk : tail.length ≤ 1)
    (hw : vals.data.length = vals.shape.prod)
    (hnn : nn ≠ 1)
    (hfp : (finitePairs dr ir).head? = some (d0, i0))
    (hd0 : ¬ d0 < idwTol)
    (hix : ∀ q ∈ finitePairs dr ir, q.2 < n) :
    idwWzr nn p vals dr ir = .ok ((List.range tail.prod).map (fun j =>
      fdot (((finitePairs dr ir).map (fun q => 1 / q.1 ^ p)).map (fun x =>
          x / (((finitePairs dr ir).map (fun q2 => 1 / q2.1 ^ p)).sum)))
        ((finitePairs dr ir).map (fun q => getEntry vals q.2 j)))) := by
  have hborder : ∀ i ∈ (finitePairs dr ir).map Prod.snd, i < n := by
    intro i hi
    obtain ⟨q, hq, rfl⟩ := List.mem_map.1 hi
    exact hix q hq
  have hfr := fancyRows_ok hsh hborder
  simp only [idwWzr, if_neg hnn, hfp]
  rw [if_neg hd0, hfr, ok_bind]
  cases tail with
  | nil =>
    have hdot := npDot_rank1
      (w := ((finitePairs dr ir).map (fun q => 1 / q.1 ^ p)).map (fun x =>
        x / (((finitePairs dr ir).map (fun q2 => 1 / q2.1 ^ p)).sum)))
      (b := ⟨((finitePairs dr ir).map Prod.snd).length :: [],
        ((finitePairs dr ir).map Prod.snd).flatMap (fun i => getRow vals i)⟩)
      rfl (by simp)
    rw [hdot, ok_bind]
    have hA : ((finitePairs dr ir).map Prod.snd).flatMap (fun i => getRow vals i) =
        (finitePairs dr ir).map (fun q => getEntry vals q.2 0) := by
      rw [flatMap_getRow_rank1 hsh hw hborder, List.map_map]
      apply List.map_congr_left
      intro q _
      simp only [Function.comp_def, getEntry, hsh, rowSize, List.tail_cons,
        List.prod_nil, Nat.mul_one, Nat.add_zero]
    rw [hA]
    rfl
  | cons F rest =>
    cases rest with
    | cons a rest => exact absurd hrk (by simp)
    | nil =>
      have hdot := npDot_rank2
        (w := ((finitePairs dr ir).map (fun q => 1 / q.1 ^ p)).map (fun x =>
          x / (((finitePairs dr ir).map (fun q2 => 1 / q2.1 ^ p)).sum)))
        (b := ⟨((finitePairs dr ir).map Prod.snd).length :: [F],
          ((finitePairs dr ir).map Prod.snd).flatMap (fun i => getRow vals i)⟩)
        rfl (by simp)
      rw [hdot, ok_bind]
      have hu : ∀ i ∈ (finitePairs dr ir).map Prod.snd,
          (getRow vals i).length = F := by
        intro i hi
        have := getRow_length hsh hw (hborder i hi)
        simpa using this
      have hB : (List.range F).map (fun j =>
          fdot (((finitePairs dr ir).map (fun q => 1 / q.1 ^ p)).map (fun x =>
            x / (((finitePairs dr ir).map (fun q2 => 1 / q2.1 ^ p)).sum)))
            ((List.range ((finitePairs dr ir).map Prod.snd).length).map
              (fun k => (((finitePairs dr ir).map Prod.snd).flatMap
                (fun i => getRow vals i)).getD (k * F + j) none))) =
          (List.range F).map (fun j =>
          fdot (((finitePairs dr ir).map (fun q => 1 / q.1 ^ p)).map (fun x =>
            x / (((finitePairs dr ir).map (fun q2 => 1 / q2.1 ^ p)).sum)))
            ((finitePairs dr ir).map (fun q => getEntry vals q.2 j))) := by
        apply List.map_congr_left
        intro j hj
        have hjF : j < F := List.mem_range.1 hj
        congr 1
        have hstep : (List.range ((finitePairs dr ir).map Prod.snd).length).map
            (fun k => (((finitePairs dr ir).map Prod.snd).flatMap
              (fun i => getRow vals i)).getD (k * F + j) none) =
            (List.range ((finitePairs dr ir).map Prod.snd).length).map
            (fun k => getEntry vals
              (((finitePairs dr ir).map Prod.snd).getD k 0) j) := by
          apply List.map_congr_left
          intro k hk
          have hkl : k < ((finitePairs dr ir).map Prod.snd).length :=
            List.mem_range.1 hk
          rw [flatMap_uniform_getD hu hkl hjF]
          exact getRow_getD hsh (by simpa using hjF)
        rw [hstep, range_map_getD ((finitePairs dr ir).map Prod.snd)
          (fun i => getEntry vals i j) 0, List.map_map]
        rfl
      rw [hB]
      have hpr : ([F] : List ℕ).prod = F := by simp
      rw [hpr]
      rfl

theorem sum_map_div (l : List ℚ) (S : ℚ) :
    (l.map (fun y => y / S)).sum = l.sum / S := by
  induction l with
  | nil => simp
  | cons x l ih => rw [List.map_cons, List.sum_cons, List.sum_cons, ih, add_div]

theorem fancyRows_ok_inv {a : NDArray} {n : ℕ} {tail : List ℕ} {ix : List ℕ}
    {m : NDArray} (hsh : a.shape = n :: tail) (h : fancyRows a ix = .ok m) :
    ∀ i ∈ ix, i < n := by
  obtain ⟨s, d⟩ := a
  simp only at hsh
  subst hsh
  simp only [fancyRows] at h
  split at h
  next hall =>
    intro i hi
    have := List.all_eq_true.1 hall i hi
    exact of_decide_eq_true this
  next => exact Except.noConfusion h

/-- Claim C5: in an IDW evaluation with `nnearest > 1` and no coincident
points (every retained finite neighbour distance of target `t` is at least
the tolerance `1e-10`), the retained neighbours are weighted by
`1/distance^power` normalized by the weight sum; the weights are
non-negative and sum to 1, and the output row for `t` is the weighted sum
of the corresponding value rows (entrywise over the feature axis; value
arrays of rank ≤ 2, the ranks for which evaluation is defined — see C9). -/
theorem c5_idw_weights
    (st : Idw) (vals : NDArray) (out : NDArray) (t : ℕ)
    (dr : List DVal) (ir : List ℕ) (n : ℕ) (tail : List ℕ)
    (hnn : st.nnearest ≠ 1)
    (ht : t < (st.dists.zip st.ix).length)
    (hrow : (st.dists.zip st.ix).getD t ([], []) = (dr, ir))
    (hd0 : ∀ q ∈ finitePairs dr ir, idwTol ≤ q.1)
    (hsh : vals.shape = n :: tail) (hrk : tail.length ≤ 1)
    (hw : vals.data.length = vals.shape.prod)
    (hcall : idwCall st vals = .ok out) :
    (∀ x ∈ ((finitePairs dr ir).map (fun q => 1 / q.1 ^ st.p)).map (fun y =>
        y / (((finitePairs dr ir).map (fun q2 => 1 / q2.1 ^ st.p)).sum)), 0 ≤ x) ∧
    (((finitePairs dr ir).map (fun q => 1 / q.1 ^ st.p)).map (fun y =>
        y / (((finitePairs dr ir).map (fun q2 => 1 / q2.1 ^ st.p)).sum))).sum = 1 ∧
    getRow out t = (List.range tail.prod).map (fun j =>
      fdot (((finitePairs dr ir).map (fun q => 1 / q.1 ^ st.p)).map (fun y =>
          y / (((finitePairs dr ir).map (fun q2 => 1 / q2.1 ^ st.p)).sum)))
        ((finitePairs dr ir).map (fun q => getEntry vals q.2 j))) := by
  obtain ⟨row, hr, hout⟩ := idwCall_row hsh hcall ht hrow
  rw [idwRow] at hr
  obtain ⟨wzr, hwzr, hfill⟩ := except_bind_ok (h := hr)
  -- the filtered neighbour list is nonempty, otherwise the branch raises
  cases hfph : (finitePairs dr ir).head? with
  | none =>
    rw [idwWzr] at hwzr
    simp only [if_neg hnn, hfph] at hwzr
    exact Except.noConfusion hwzr
  | some q0 =>
    obtain ⟨dh, ih⟩ := q0
    have hmem0 : (dh, ih) ∈ finitePairs dr ir :=
      List.mem_of_mem_head? (by rw [hfph]; exact rfl)
    have hdge : idwTol ≤ dh := hd0 (dh, ih) hmem0
    have hnlt : ¬ dh < idwTol := not_lt.2 hdge
    -- recover the neighbour-index bounds from the successful gather
    have hwzr2 := hwzr
    rw [idwWzr] at hwzr2
    simp only [if_neg hnn, hfph] at hwzr2
    rw [if_neg hnlt] at hwzr2
    obtain ⟨m, hfrm, -⟩ := except_bind_ok (h := hwzr2)
    have hixb : ∀ q ∈ finitePairs dr ir, q.2 < n := by
      intro q hq
      have hb := fancyRows_ok_inv hsh hfrm
      exact hb q.2 (List.mem_map.2 ⟨q, hq, rfl⟩)
    -- evaluate the weighting branch
    have hweight := idwWzr_weighting (p := st.p) hsh hrk hw hnn hfph hnlt hixb
    rw [hweight] at hwzr
    have hwzr3 : wzr = (List.range tail.prod).map (fun j =>
        fdot (((finitePairs dr ir).map (fun q => 1 / q.1 ^ st.p)).map (fun x =>
            x / (((finitePairs dr ir).map (fun q2 => 1 / q2.1 ^ st.p)).sum)))
          ((finitePairs dr ir).map (fun q => getEntry vals q.2 j))) := by
      cases hwzr
      rfl
    -- positivity of the raw weights and their sum
    have hfp_ne : finitePairs dr ir ≠ [] := by
      intro hcon
      rw [hcon] at hfph
      exact Option.noConfusion hfph
    have htolpos : (0 : ℚ) < idwTol := by norm_num [idwTol]
    have hwpos : ∀ x ∈ (finitePairs dr ir).map (fun q => 1 / q.1 ^ st.p), 0 < x := by
      intro x hx
      obtain ⟨q, hq, rfl⟩ := List.mem_map.1 hx
      have hqpos : 0 < q.1 := lt_of_lt_of_le htolpos (hd0 q hq)
      positivity
    have hspos : 0 < ((finitePairs dr ir).map (fun q => 1 / q.1 ^ st.p)).sum := by
      apply List.sum_pos _ hwpos
      simpa using hfp_ne
    refine ⟨?_, ?_, ?_⟩
    · intro x hx
      obtain ⟨y, hy, rfl⟩ := List.mem_map.1 hx
      exact le_of_lt (div_pos (hwpos y hy) hspos)
    · rw [sum_map_div]
      exact div_self (ne_of_gt hspos)
    · rw [hout]
      rw [hwzr3, hsh] at hfill
      simp only [List.tail_cons] at hfill
      have hlen : ((List.range tail.prod).map (fun j =>
          fdot (((finitePairs dr ir).map (fun q => 1 / q.1 ^ st.p)).map (fun x =>
              x / (((finitePairs dr ir).map (fun q2 => 1 / q2.1 ^ st.p)).sum)))
            ((finitePairs dr ir).map (fun q => getEntry vals q.2 j)))).length =
          tail.prod := by simp
      exact broadcastFill_exact hlen hfill

/-- Witness for C5: sources 0 and 2, target 1 (both neighbours at squared
distance 1 ≥ tolerance), `k = 2`, power 2; the normalized weights sum
to 1. -/
theorem c5_idw_weights_witness :
    (∀ q ∈ finitePairs [some 1, some 1] [0, 1], idwTol ≤ q.1) ∧
    (((finitePairs [some 1, some 1] [0, 1]).map
        (fun q => 1 / q.1 ^ (idwInit [[0], [2]] [[1]] 2 2).p)).map (fun y =>
      y / (((finitePairs [some 1, some 1] [0, 1]).map
        (fun q2 => 1 / q2.1 ^ (idwInit [[0], [2]] [[1]] 2 2).p)).sum))).sum = 1 :=
  ⟨by with_unfolding_all decide,
   (c5_idw_weights (idwInit [[0], [2]] [[1]] 2 2) ⟨[2], [some 1, some 3]⟩
      ⟨[1], [some 2]⟩ 0 [some 1, some 1] [0, 1] 2 []
      (by with_unfolding_all decide) (by with_unfolding_all decide)
      (by with_unfolding_all rfl) (by with_unfolding_all decide)
      (by with_unfolding_all rfl) (by decide) (by with_unfolding_all rfl)
      (by with_unfolding_all rfl)).2.1⟩

theorem mapM_ok_of_forall_ok {α β : Type} {f : α → Except String β} :
    ∀ {l : List α}, (∀ x ∈ l, ∃ y, f x = .ok y) →
      ∃ r, l.mapM f = .ok r ∧ List.Forall₂ (fun a b => f a = .ok b) l r := by
  intro l
  induction l with
  | nil => intro _; exact ⟨[], rfl, List.Forall₂.nil⟩
  | cons a l ih =>
    intro h
    obtain ⟨y, hy⟩ := h a (List.mem_cons_self a l)
    obtain ⟨r, hr, hf⟩ := ih (fun x hx => h x (List.mem_cons_of_mem a hx))
    refine ⟨y :: r, ?_, List.Forall₂.cons hy hf⟩
    rw [List.mapM_cons, hy, hr]
    rfl

theorem kquery_fp_ne {src : List Pt} {t : Pt} {k : ℕ}
    (hsrc : src ≠ []) (hk : 1 ≤ k) :
    finitePairs ((kquery src k t).map Prod.fst) ((kquery src k t).map Prod.snd) ≠ [] := by
  rw [finitePairs_kquery]
  intro hcon
  have := congrArg List.length hcon
  rw [List.length_take, length_sortedPairs] at this
  simp only [List.length_nil] at this
  have hsl : 0 < src.length := List.length_pos.2 hsrc
  omega

theorem kquery_fp_bound {src : List Pt} {t : Pt} {k : ℕ} :
    ∀ q ∈ finitePairs ((kquery src k t).map Prod.fst)
      ((kquery src k t).map Prod.snd), q.2 < src.length := by
  rw [finitePairs_kquery]
  intro q hq
  exact (mem_sortedPairs_iff.1 (List.mem_of_mem_take hq)).1

theorem idwRow_built_ok {src : List Pt} {t : Pt} {k p : ℕ} {tail : List ℕ}
    {vals : NDArray}
    (hsrc : src ≠ []) (hk : 1 ≤ k)
    (hsh : vals.shape = src.length :: tail) (hrk : tail.length ≤ 1)
    (hw : vals.data.length = vals.shape.prod) :
    ∃ row, idwRow k p vals ((kquery src k t).map Prod.fst)
      ((kquery src k t).map Prod.snd) = .ok row := by
  have hbound := @kquery_fp_bound src t k
  have hbmap : ∀ i ∈ (finitePairs ((kquery src k t).map Prod.fst)
      ((kquery src k t).map Prod.snd)).map Prod.snd, i < src.length := by
    intro i hi
    obtain ⟨q, hq, rfl⟩ := List.mem_map.1 hi
    exact hbound q hq
  have hfrm := fancyRows_ok hsh hbmap
  have hu : ∀ i ∈ (finitePairs ((kquery src k t).map Prod.fst)
      ((kquery src k t).map Prod.snd)).map Prod.snd,
      (getRow vals i).length = tail.prod := by
    intro i hi
    exact getRow_length hsh hw (hbmap i hi)
  rcases Decidable.em (k = 1) with hk1 | hk1
  · -- nearest-neighbour special case: exactly one retained neighbour
    have hfl : (finitePairs ((kquery src k t).map Prod.fst)
        ((kquery src k t).map Prod.snd)).length = 1 := by
      rw [finitePairs_kquery, List.length_take, length_sortedPairs, hk1]
      have hsl : 0 < src.length := List.length_pos.2 hsrc
      omega
    have hwlen : (((finitePairs ((kquery src k t).map Prod.fst)
        ((kquery src k t).map Prod.snd)).map Prod.snd).flatMap
          (fun i => getRow vals i)).length = tail.prod := by
      rw [flatMap_uniform_length hu, List.length_map, hfl, one_mul]
    rw [idwRow, idwWzr]
    simp only [if_pos hk1]
    rw [hfrm, ok_bind]
    have hfill := broadcastFill_rank_le_one hrk hwlen
    rw [show ((pure (⟨((finitePairs ((kquery src k t).map Prod.fst)
        ((kquery src k t).map Prod.snd)).map Prod.snd).length :: tail,
        ((finitePairs ((kquery src k t).map Prod.fst)
        ((kquery src k t).map Prod.snd)).map Prod.snd).flatMap
          (fun i => getRow vals i)⟩ : NDArray).data :
          Except String (List FVal)) >>= broadcastFill vals.shape.tail) =
      broadcastFill vals.shape.tail (((finitePairs ((kquery src k t).map Prod.fst)
        ((kquery src k t).map Prod.snd)).map Prod.snd).flatMap
          (fun i => getRow vals i)) from rfl]
    rw [hsh]
    exact ⟨_, by rw [List.tail_cons]; exact hfill⟩
  · -- general branch: the filtered head exists
    cases hfph : (finitePairs ((kquery src k t).map Prod.fst)
        ((kquery src k t).map Prod.snd)).head? with
    | none =>
      exact absurd (List.head?_eq_none_iff.1 hfph) (kquery_fp_ne hsrc hk)
    | some q0 =>
      obtain ⟨dh, ihd⟩ := q0
      have hmem : (dh, ihd) ∈ finitePairs ((kquery src k t).map Prod.fst)
          ((kquery src k t).map Prod.snd) :=
        List.mem_of_mem_head? (by rw [hfph]; exact rfl)
      rcases Decidable.em (dh < idwTol) with hdlt | hdlt
      · -- coincident target
        rw [idwRow, idwWzr]
        simp only [if_neg hk1, hfph]
        rw [if_pos hdlt]
        have hg : getRowE vals ihd = .ok (getRow vals ihd) := by
          obtain ⟨s, d⟩ := vals
          simp only at hsh
          subst hsh
          simp only [getRowE]
          rw [if_pos (hbound (dh, ihd) hmem)]
        rw [hg, ok_bind, hsh]
        have hlen : (getRow vals ihd).length = tail.prod :=
          getRow_length hsh hw (hbound (dh, ihd) hmem)
        exact ⟨_, by rw [List.tail_cons]; exact broadcastFill_rank_le_one hrk hlen⟩
      · -- inverse-distance weighting
        have hweight := @idwWzr_weighting k p _ _ _ _ _ _ _ hsh hrk hw hk1 hfph
          hdlt hbound
        rw [idwRow, hweight, ok_bind, hsh]
        have hlen : ((List.range tail.prod).map (fun j =>
            fdot (((finitePairs ((kquery src k t).map Prod.fst)
                ((kquery src k t).map Prod.snd)).map (fun q => 1 / q.1 ^ p)).map
              (fun x => x / (((finitePairs ((kquery src k t).map Prod.fst)
                ((kquery src k t).map Prod.snd)).map
                  (fun q2 => 1 / q2.1 ^ p)).sum)))
              ((finitePairs ((kquery src k t).map Prod.fst)
                ((kquery src k t).map Prod.snd)).map
                (fun q => getEntry vals q.2 j)))).length = tail.prod := by
          simp
        exact ⟨_, by rw [List.tail_cons]; exact broadcastFill_rank_le_one hrk hlen⟩

theorem length_flatten_uniform {rows : List (List FVal)} {m : ℕ}
    (hu : ∀ r ∈ rows, r.length = m) :
    rows.flatten.length = rows.length * m := by
  induction rows with
  | nil => simp
  | cons r rows ih =>
    rw [List.flatten_cons, List.length_append, hu r (List.mem_cons_self r rows),
      ih (fun x hx => hu x (List.mem_cons_of_mem r hx)), List.length_cons]
    ring

theorem idwInit_zip (src trg : List Pt) (k p : ℕ) :
    ((idwInit src trg k p).dists.zip (idwInit src trg k p).ix) =
      trg.map (fun t => ((kquery src k t).map Prod.fst,
        (kquery src k t).map Prod.snd)) := by
  simp only [idwInit]
  rw [List.map_map, List.map_map, List.zip_map']
  rfl

theorem idwCall_built_ok {src trg : List Pt} {k p : ℕ} {tail : List ℕ}
    {vals : NDArray}
    (hsrc : src ≠ []) (hk : 1 ≤ k)
    (hsh : vals.shape = src.length :: tail) (hrk : tail.length ≤ 1)
    (hw : vals.data.length = vals.shape.prod) :
    ∃ out, idwCall (idwInit src trg k p) vals = .ok out ∧
      out.shape = trg.length :: tail ∧
      out.data.length = trg.length * tail.prod := by
  have hzip := idwInit_zip src trg k p
  have hex : ∀ x ∈ trg.map (fun t => ((kquery src k t).map Prod.fst,
      (kquery src k t).map Prod.snd)),
      ∃ y, idwRow k p vals x.1 x.2 = .ok y := by
    intro x hx
    obtain ⟨t, -, rfl⟩ := List.mem_map.1 hx
    exact idwRow_built_ok hsrc hk hsh hrk hw
  obtain ⟨rows, hm, hf⟩ := mapM_ok_of_forall_ok hex
  have hrlen : rows.length = trg.length := by
    have := hf.length_eq
    rw [List.length_map] at this
    omega
  have hnn : (idwInit src trg k p).nnearest = k := rfl
  have hpp : (idwInit src trg k p).p = p := rfl
  have hdl : (idwInit src trg k p).dists.length = trg.length := by
    simp [idwInit]
  have hru : ∀ r ∈ rows, r.length = tail.prod := by
    intro r hr
    obtain ⟨⟨t', ht'⟩, rfl⟩ := List.mem_iff_get.1 hr
    have hget := (List.forall₂_iff_get.1 hf).2 t' (by
      rw [List.length_map]; omega) ht'
    have := idwRow_ok_length hget
    rw [hsh] at this
    simpa using this
  obtain ⟨s, dta⟩ := vals
  simp only at hsh hw
  subst hsh
  refine ⟨⟨trg.length :: tail, rows.flatten⟩, ?_, rfl, ?_⟩
  · simp only [idwCall]
    rw [hnn, hpp, hzip, hm, ok_bind]
    show Except.ok _ = _
    rw [hdl, hrlen, Nat.sub_self, List.replicate_zero, List.append_nil]
  · rw [length_flatten_uniform hru, hrlen]

/-- Claim C9 (amended): for value arrays of rank ≤ 2 that conform to the
recorded source count (built from a non-empty source set, with at least
one neighbour requested), `Idw.__call__` returns an output whose first
axis is the target count and whose trailing shape equals the value
array's trailing shape, and each target's output row is computed
independently: it equals the row obtained by interpolating that target
alone.  (For rank ≥ 3 the call raises instead — see the counterexample.) -/
theorem c9_idw_shape_and_independence
    (src trg : List Pt) (k p : ℕ) (vals : NDArray) (tail : List ℕ)
    (hsrc : src ≠ []) (hk : 1 ≤ k)
    (hsh : vals.shape = src.length :: tail) (hrk : tail.length ≤ 1)
    (hw : vals.data.length = vals.shape.prod) :
    ∃ out, idwCall (idwInit src trg k p) vals = .ok out ∧
      out.shape = trg.length :: tail ∧
      out.data.length = trg.length * tail.prod ∧
      ∀ t (ht : t < trg.length), ∃ out1,
        idwCall (idwInit src [trg.get ⟨t, ht⟩] k p) vals = .ok out1 ∧
        getRow out t = getRow out1 0 := by
  obtain ⟨out, hcall, hshape, hdlen⟩ :=
    @idwCall_built_ok src trg k p _ _ hsrc hk hsh hrk hw
  refine ⟨out, hcall, hshape, hdlen, ?_⟩
  intro t ht
  obtain ⟨out1, hcall1, hshape1, hdlen1⟩ :=
    @idwCall_built_ok src [trg.get ⟨t, ht⟩] k p _ _ hsrc hk hsh hrk hw
  refine ⟨out1, hcall1, ?_⟩
  have hzip := idwInit_zip src trg k p
  have hzip1 := idwInit_zip src [trg.get ⟨t, ht⟩] k p
  have hlen : ((idwInit src trg k p).dists.zip
      (idwInit src trg k p).ix).length = trg.length := by
    rw [hzip, List.length_map]
  have hgetD : ((idwInit src trg k p).dists.zip
      (idwInit src trg k p).ix).getD t ([], []) =
      ((kquery src k (trg.get ⟨t, ht⟩)).map Prod.fst,
        (kquery src k (trg.get ⟨t, ht⟩)).map Prod.snd) := by
    rw [hzip, List.getD_eq_getElem?_getD, List.getElem?_map,
      List.getElem?_eq_getElem ht]
    rfl
  have hgetD1 : ((idwInit src [trg.get ⟨t, ht⟩] k p).dists.zip
      (idwInit src [trg.get ⟨t, ht⟩] k p).ix).getD 0 ([], []) =
      ((kquery src k (trg.get ⟨t, ht⟩)).map Prod.fst,
        (kquery src k (trg.get ⟨t, ht⟩)).map Prod.snd) := by
    rw [hzip1]
    rfl
  obtain ⟨row, hr, hrow⟩ := idwCall_row hsh hcall (by rw [hlen]; exact ht) hgetD
  obtain ⟨row1, hr1, hrow1⟩ := idwCall_row hsh hcall1
    (by rw [hzip1]; simp) hgetD1
  simp only [idwInit] at hr hr1
  have heq : row = row1 := Except.ok.inj (hr.symm.trans hr1)
  rw [hrow, hrow1, heq]

/-- Witness for C9 (amended): two sources on a line, two targets, a
rank-2 value array with one feature column. -/
theorem c9_idw_shape_and_independence_witness :
    ([[0], [10]] : List Pt) ≠ [] ∧
    (⟨[2, 1], [some 5, some 6]⟩ : NDArray).shape =
      [([[0], [10]] : List Pt).length, 1] ∧
    ∃ out, idwCall (idwInit [[0], [10]] [[1], [9]] 2 2)
        ⟨[2, 1], [some 5, some 6]⟩ = .ok out ∧
      out.shape = [2, 1] := by
  refine ⟨by decide, by with_unfolding_all rfl, ?_⟩
  obtain ⟨out, hcall, hshape, -⟩ :=
    c9_idw_shape_and_independence [[0], [10]] [[1], [9]] 2 2
      ⟨[2, 1], [some 5, some 6]⟩ [1]
      (by decide) (by decide) (by with_unfolding_all rfl) (by decide)
      (by with_unfolding_all rfl)
  exact ⟨out, hcall, hshape⟩

theorem nearestInit_lengths (src trg : List Pt) :
    (nearestInit src trg).dists.length = trg.length ∧
    (nearestInit src trg).ix.length = trg.length := by
  simp [nearestInit]

theorem kquery_one {src : List Pt} {t : Pt} (hsrc : src ≠ []) :
    ∃ q0 rest, sortedPairs src t = q0 :: rest ∧
      kquery src 1 t = [((some q0.1 : DVal), q0.2)] := by
  have hne : sortedPairs src t ≠ [] := by
    intro hcon
    have := congrArg List.length hcon
    rw [length_sortedPairs] at this
    exact hsrc (List.length_eq_zero.1 (by simpa using this))
  obtain ⟨q0, rest, hq⟩ := List.exists_cons_of_ne_nil hne
  refine ⟨q0, rest, hq, ?_⟩
  rw [kquery, hq]
  have hsl : 1 ≤ src.length := by
    have := List.length_pos.2 hsrc
    omega
  rw [Nat.sub_eq_zero_of_le hsl, List.replicate_zero, List.append_nil,
    List.take_succ_cons, List.take_zero]
  rfl

theorem nearestInit_get {src trg : List Pt} {t : ℕ}
    (hsrc : src ≠ []) (ht : t < trg.length) :
    ∃ q0 rest, sortedPairs src (trg.get ⟨t, ht⟩) = q0 :: rest ∧
      (nearestInit src trg).dists.getD t none = some q0.1 ∧
      (nearestInit src trg).ix.getD t 0 = q0.2 := by
  obtain ⟨q0, rest, hq, hkq⟩ := kquery_one (t := trg.get ⟨t, ht⟩) hsrc
  refine ⟨q0, rest, hq, ?_, ?_⟩
  · show ((trg.map (fun tp => (kquery src 1 tp).headD (none, 0))).map
      Prod.fst).getD t none = _
    rw [List.getD_eq_getElem?_getD, List.getElem?_map, List.getElem?_map,
      List.getElem?_eq_getElem ht]
    simp only [Option.map_some']
    rw [List.get_eq_getElem] at hkq
    rw [hkq]
    rfl
  · show ((trg.map (fun tp => (kquery src 1 tp).headD (none, 0))).map
      Prod.snd).getD t 0 = _
    rw [List.getD_eq_getElem?_getD, List.getElem?_map, List.getElem?_map,
      List.getElem?_eq_getElem ht]
    simp only [Option.map_some']
    rw [List.get_eq_getElem] at hkq
    rw [hkq]
    rfl

theorem nearestInit_ix_bound {src trg : List Pt} (hsrc : src ≠ []) :
    ∀ i ∈ (nearestInit src trg).ix, i < src.length := by
  intro i hi
  have hi2 : i ∈ (trg.map (fun tp => (kquery src 1 tp).headD (none, 0))).map
      Prod.snd := hi
  obtain ⟨pr, hpr, rfl⟩ := List.mem_map.1 hi2
  obtain ⟨tp, -, rfl⟩ := List.mem_map.1 hpr
  obtain ⟨q0, rest, hq, hkq⟩ := kquery_one (t := tp) hsrc
  rw [hkq]
  have hq0mem : q0 ∈ sortedPairs src tp := by
    rw [hq]
    exact List.mem_cons_self q0 rest
  exact (mem_sortedPairs_iff.1 hq0mem).1

theorem fancy_getRow {vals : NDArray} {n : ℕ} {tail : List ℕ} {ix : List ℕ}
    {t : ℕ} (hsh : vals.shape = n :: tail)
    (hw : vals.data.length = vals.shape.prod)
    (hb : ∀ i ∈ ix, i < n) (ht : t < ix.length) :
    getRow ⟨ix.length :: tail, ix.flatMap (fun i => getRow vals i)⟩ t =
      getRow vals (ix.getD t 0) := by
  have hu : ∀ r ∈ ix.map (fun i => getRow vals i), r.length = tail.prod := by
    intro r hr
    obtain ⟨i, hi, rfl⟩ := List.mem_map.1 hr
    exact getRow_length hsh hw (hb i hi)
  have hflat : ix.flatMap (fun i => getRow vals i) =
      (ix.map (fun i => getRow vals i)).flatten := by
    rw [List.flatMap_def]
  show ((ix.flatMap (fun i => getRow vals i)).drop (t * tail.prod)).take
    tail.prod = _
  rw [hflat, flatten_uniform_extract hu (by simpa using ht)]
  rw [List.getD_eq_getElem?_getD, List.getElem?_map,
    List.getElem?_eq_getElem ht, Option.map_some', Option.getD_some]
  rw [List.getD_eq_getElem?_getD, List.getElem?_eq_getElem ht, Option.getD_some]

theorem getD_map_of_lt {α β : Type} (f : α → β) {l : List α} {t : ℕ}
    (h : t < l.length) (d : α) (d2 : β) :
    (l.map f).getD t d2 = f (l.getD t d) := by
  rw [List.getD_eq_getElem?_getD, List.getElem?_map,
    List.getElem?_eq_getElem h, Option.map_some', Option.getD_some,
    List.getD_eq_getElem?_getD, List.getElem?_eq_getElem h, Option.getD_some]

theorem bcast2_same (L : ℕ) : bcast2 [L] [L] = .ok [L] := by
  simp only [bcast2, bcastRev, List.reverse_cons, List.reverse_nil,
    List.nil_append, if_pos rfl]
  rfl

theorem nearestCall_no_maxdist {src trg : List Pt} {vals : NDArray}
    {tail : List ℕ} (hsrc : src ≠ [])
    (hsh : vals.shape = src.length :: tail)
    (hw : vals.data.length = vals.shape.prod) :
    ∃ out, nearestCall (nearestInit src trg) vals none = .ok out ∧
      out.shape = trg.length :: tail ∧
      ∀ t, t < trg.length → getRow out t =
        getRow vals ((nearestInit src trg).ix.getD t 0) := by
  have hb : ∀ i ∈ (nearestInit src trg).ix, i < src.length :=
    nearestInit_ix_bound hsrc
  have hfr := fancyRows_ok hsh hb
  have hlens := nearestInit_lengths src trg
  obtain ⟨s, dta⟩ := vals
  simp only at hsh hw
  subst hsh
  refine ⟨⟨(nearestInit src trg).ix.length :: tail,
    (nearestInit src trg).ix.flatMap
      (fun i => getRow ⟨src.length :: tail, dta⟩ i)⟩, ?_, ?_, ?_⟩
  · simp only [nearestCall]
    rw [if_pos (show src.length = (nearestInit src trg).numsources from rfl),
      hfr, ok_bind]
    rfl
  · rw [hlens.2]
  · intro t ht
    exact fancy_getRow rfl hw hb (by rw [hlens.2]; exact ht)

theorem nearestCall_maxdist_rank1 {src trg : List Pt} {vals : NDArray}
    (hsrc : src ≠ [])
    (hsh : vals.shape = [src.length])
    (hw : vals.data.length = vals.shape.prod) (m : ℚ) :
    ∃ out, nearestCall (nearestInit src trg) vals (some m) = .ok out ∧
      out.shape = [trg.length] ∧
      ∀ t, t < trg.length → out.data.getD t none =
        (if distExceeds m ((nearestInit src trg).dists.getD t none) then none
         else vals.data.getD ((nearestInit src trg).ix.getD t 0) none) := by
  have hb : ∀ i ∈ (nearestInit src trg).ix, i < src.length :=
    nearestInit_ix_bound hsrc
  have hfr := fancyRows_ok hsh hb
  have hlens := nearestInit_lengths src trg
  have hflat : (nearestInit src trg).ix.flatMap (fun i => getRow vals i) =
      (nearestInit src trg).ix.map (fun i => vals.data.getD i none) :=
    flatMap_getRow_rank1 hsh hw hb
  have hcl : ((nearestInit src trg).dists.map (distExceeds m)).length =
      (nearestInit src trg).ix.length := by
    rw [List.length_map, hlens.1, hlens.2]
  obtain ⟨s, dta⟩ := vals
  simp only at hsh hw hflat
  subst hsh
  have hnw : npWhereNan ((nearestInit src trg).dists.map (distExceeds m))
      ⟨[(nearestInit src trg).ix.length],
        (nearestInit src trg).ix.flatMap
          (fun i => getRow ⟨[src.length], dta⟩ i)⟩ =
      .ok ⟨[(nearestInit src trg).ix.length],
        (List.range (([(nearestInit src trg).ix.length] : List ℕ).prod)).map
          (fun u =>
          if ((nearestInit src trg).dists.map (distExceeds m)).getD
              ((projIdx (unrank [(nearestInit src trg).ix.length] u)
                [((nearestInit src trg).dists.map
                  (distExceeds m)).length]).headD 0) false then none
          else ((nearestInit src trg).ix.flatMap
            (fun i => getRow ⟨[src.length], dta⟩ i)).getD
              (rankIdx [(nearestInit src trg).ix.length]
                (projIdx (unrank [(nearestInit src trg).ix.length] u)
                  [(nearestInit src trg).ix.length])) none)⟩ := by
    rw [npWhereNan, hcl, bcast2_same, ok_bind]
  refine ⟨⟨[(nearestInit src trg).ix.length],
    (List.range (([(nearestInit src trg).ix.length] : List ℕ).prod)).map
      (fun u =>
      if ((nearestInit src trg).dists.map (distExceeds m)).getD
          ((projIdx (unrank [(nearestInit src trg).ix.length] u)
            [((nearestInit src trg).dists.map
              (distExceeds m)).length]).headD 0) false then none
      else ((nearestInit src trg).ix.flatMap
        (fun i => getRow ⟨[src.length], dta⟩ i)).getD
          (rankIdx [(nearestInit src trg).ix.length]
            (projIdx (unrank [(nearestInit src trg).ix.length] u)
              [(nearestInit src trg).ix.length])) none)⟩, ?_, ?_, ?_⟩
  · simp only [nearestCall]
    rw [if_pos (show src.length = (nearestInit src trg).numsources from rfl),
      hfr, ok_bind, hnw]
  · rw [hlens.2]
  · intro t ht
    have htL : t < (nearestInit src trg).ix.length := by
      rw [hlens.2]
      exact ht
    have htl : t < ([(nearestInit src trg).ix.length] : List ℕ).prod := by
      simp only [List.prod_cons, List.prod_nil, mul_one]
      exact htL
    show ((List.range (([(nearestInit src trg).ix.length] : List ℕ).prod)).map
      _).getD t none = _
    rw [List.getD_eq_getElem?_getD, List.getElem?_map, List.getElem?_range htl,
      Option.map_some', Option.getD_some]
    have hmi : unrank [(nearestInit src trg).ix.length] t = [t] := by
      simp [unrank]
    have hproj : projIdx [t] [(nearestInit src trg).ix.length] =
        [if (nearestInit src trg).ix.length = 1 then 0 else t] := by
      simp [projIdx]
    have hx : (if (nearestInit src trg).ix.length = 1 then 0 else t) = t := by
      split
      next h1 =>
        rw [hlens.2] at h1
        omega
      next => rfl
    have hrank : rankIdx [(nearestInit src trg).ix.length] [t] = t := by
      simp [rankIdx]
    rw [hmi, hcl, hproj, hx, List.headD_cons, hrank]
    have htd : t < (nearestInit src trg).dists.length := by
      rw [hlens.1]
      exact ht
    have hc : ((nearestInit src trg).dists.map (distExceeds m)).getD t false =
        distExceeds m ((nearestInit src trg).dists.getD t none) :=
      getD_map_of_lt (distExceeds m) htd none false
    have hfv : ((nearestInit src trg).ix.flatMap
        (fun i => getRow ⟨[src.length], dta⟩ i)).getD t none =
        dta.getD ((nearestInit src trg).ix.getD t 0) none := by
      rw [hflat]
      exact getD_map_of_lt (fun i => dta.getD i none) htL 0 none
    rw [hc, hfv]

/-- Claim C6 (amended): for a `Nearest` interpolator built from a
non-empty source set, (i) the stored index of every target is a source
minimizing the (squared, hence also true) Euclidean distance, ties broken
deterministically towards the smallest source index; (ii) without a
threshold the output stacks, per target, the value row of that nearest
source, for conforming value arrays of any rank; (iii) with a
maximum-distance threshold — for 1-D value arrays, the only rank for which
`np.where(self.dists > maxdist, np.nan, out)` is well-formed (see the
counterexample) — a target whose stored nearest distance exceeds the
threshold receives NaN and every other target receives the nearest
source's value. -/
theorem c6_nearest_minimizer
    (src trg : List Pt) (vals : NDArray) (tail : List ℕ)
    (hsrc : src ≠ [])
    (hsh : vals.shape = src.length :: tail)
    (hw : vals.data.length = vals.shape.prod) :
    (∀ t (ht : t < trg.length),
      (nearestInit src trg).ix.getD t 0 < src.length ∧
      (∀ j, j < src.length →
        sqDist (trg.get ⟨t, ht⟩)
            (src.getD ((nearestInit src trg).ix.getD t 0) []) ≤
          sqDist (trg.get ⟨t, ht⟩) (src.getD j [])) ∧
      (∀ j, j < (nearestInit src trg).ix.getD t 0 →
        sqDist (trg.get ⟨t, ht⟩)
            (src.getD ((nearestInit src trg).ix.getD t 0) []) <
          sqDist (trg.get ⟨t, ht⟩) (src.getD j []))) ∧
    (∃ out, nearestCall (nearestInit src trg) vals none = .ok out ∧
      out.shape = trg.length :: tail ∧
      ∀ t, t < trg.length → getRow out t =
        getRow vals ((nearestInit src trg).ix.getD t 0)) ∧
    (tail = [] → ∀ m : ℚ,
      ∃ out, nearestCall (nearestInit src trg) vals (some m) = .ok out ∧
        out.shape = [trg.length] ∧
        ∀ t, t < trg.length → out.data.getD t none =
          (if distExceeds m ((nearestInit src trg).dists.getD t none) then none
           else vals.data.getD ((nearestInit src trg).ix.getD t 0) none)) := by
  refine ⟨?_, nearestCall_no_maxdist hsrc hsh hw, ?_⟩
  · intro t ht
    obtain ⟨q0, rest, hq, hd, hix⟩ := nearestInit_get hsrc ht
    have hq0mem : q0 ∈ sortedPairs src (trg.get ⟨t, ht⟩) := by
      rw [hq]
      exact List.mem_cons_self q0 rest
    obtain ⟨hq0lt, hq0d⟩ := mem_sortedPairs_iff.1 hq0mem
    rw [hix]
    refine ⟨hq0lt, ?_, ?_⟩
    · intro j hj
      have hjmem : (sqDist (trg.get ⟨t, ht⟩) (src.getD j []), j) ∈
          sortedPairs src (trg.get ⟨t, ht⟩) :=
        mem_sortedPairs_iff.2 ⟨hj, rfl⟩
      have hmin := sortedPairs_head_min hq _ hjmem
      rcases hmin with hlt | ⟨heq, -⟩
      · rw [← hq0d]
        exact le_of_lt hlt
      · rw [← hq0d, heq]
    · intro j hjlt
      have hj : j < src.length := lt_trans hjlt hq0lt
      have hjmem : (sqDist (trg.get ⟨t, ht⟩) (src.getD j []), j) ∈
          sortedPairs src (trg.get ⟨t, ht⟩) :=
        mem_sortedPairs_iff.2 ⟨hj, rfl⟩
      have hmin := sortedPairs_head_min hq _ hjmem
      rcases hmin with hlt | ⟨-, hle⟩
      · rw [← hq0d]
        exact hlt
      · exact absurd hle (by omega)
  · intro htail m
    subst htail
    exact nearestCall_maxdist_rank1 hsrc hsh hw m

/-- Witness for C6 (amended): sources 0 and 10, targets 1, 9, 20, 1-D
values, threshold 50 on the stored squared distances (target 20 is at
squared distance 100 and receives NaN). -/
theorem c6_nearest_minimizer_witness :
    ([[0], [10]] : List Pt) ≠ [] ∧
    (∃ out, nearestCall (nearestInit [[0], [10]] [[1], [9], [20]])
        ⟨[2], [some 5, some 6]⟩ none = .ok out ∧
      out.shape = [([[1], [9], [20]] : List Pt).length] ∧
      ∀ t, t < ([[1], [9], [20]] : List Pt).length → getRow out t =
        getRow (⟨[2], [some 5, some 6]⟩ : NDArray)
          ((nearestInit [[0], [10]] [[1], [9], [20]]).ix.getD t 0)) :=
  ⟨by decide,
   (c6_nearest_minimizer [[0], [10]] [[1], [9], [20]] ⟨[2], [some 5, some 6]⟩ []
      (by decide) (by with_unfolding_all rfl) (by with_unfolding_all rfl)).2.1⟩

theorem effMask_all_false {mask : Option (List Bool)} {n : ℕ}
    (hmask : ∀ b ∈ mask.getD [], b = false) :
    effMask mask n = List.replicate n false := by
  cases mask with
  | none => rfl
  | some mm =>
    simp only [Option.getD_some] at hmask
    have hany : mm.any id = false := by
      rw [List.any_eq_false]
      intro b hb
      rw [hmask b hb]
      exact Bool.false_ne_true
    simp [effMask, hany]

theorem getD_replicate_false (n i : ℕ) :
    (List.replicate n false).getD i false = false := by
  rw [List.getD_eq_getElem?_getD, List.getElem?_replicate]
  split <;> rfl

theorem clutterIx_replicate_false (n : ℕ) :
    clutterIx (List.replicate n false) n = [] := by
  rw [clutterIx, List.filter_eq_nil_iff]
  intro i _
  rw [getD_replicate_false]
  exact Bool.false_ne_true

theorem deleteIdxAux_nil {α : Type} : ∀ (n : ℕ) (xs : List α),
    deleteIdxAux ([] : List ℕ) n xs = xs := by
  intro n xs
  induction xs generalizing n with
  | nil => rfl
  | cons x xs ih =>
    rw [deleteIdxAux, if_neg (List.not_mem_nil n)]
    rw [ih]

theorem deleteIdx_nil {α : Type} (xs : List α) :
    deleteIdx xs ([] : List ℕ) = xs := deleteIdxAux_nil 0 xs

theorem scatterE_nil {xs upd : List FVal} (h : upd.length = 0) :
    scatterE xs [] upd = .ok xs := by
  rw [scatterE, if_pos (by simp)]
  rw [if_pos (by rw [h]; rfl)]
  rfl

theorem gatherE_nil {α : Type} [Inhabited α] (xs : List α) :
    gatherE xs ([] : List ℕ) = .ok [] := by
  rw [gatherE, if_pos (by simp)]
  rfl

/-- Claim C7 (amended): `interpolate_polar` applied with an empty mask to
a field whose values are all finite returns the field unchanged (the
first interpolation pass is assumed to return an empty result for the
empty target set, which the bundled strategies do).  When the field
contains non-finite values the fallback pass rewrites them even though
the mask is empty — see the counterexample. -/
theorem c7_empty_mask_unchanged
    (binCo : ℕ → ℕ → Pt) (data : NDArray) (na nr : ℕ)
    (mask : Option (List Bool)) (strat : Strategy) (r : NDArray)
    (hsh : data.shape = [na, nr]) (hna : 0 < na)
    (hmask : ∀ b ∈ mask.getD [], b = false)
    (hfin : ∀ v ∈ data.data, v.isSome)
    (hstrat : interpolate (polarBins binCo na nr) []
      ⟨[data.data.length], data.data⟩ strat = .ok r)
    (hrlen : r.data.length = 0) :
    interpolate_polar binCo data mask strat = .ok data := by
  obtain ⟨s, dta⟩ := data
  simp only at hsh hfin hstrat
  subst hsh
  simp only [interpolate_polar]
  rw [if_neg (by omega)]
  rw [effMask_all_false hmask, clutterIx_replicate_false,
    deleteIdx_nil, deleteIdx_nil, gatherE_nil, ok_bind, hstrat, ok_bind,
    scatterE_nil hrlen, ok_bind]
  have hany : dta.any (fun v => v.isNone) = false := by
    rw [List.any_eq_false]
    intro v hv
    have hvs := hfin v hv
    intro hcon
    rw [Option.isNone_iff_eq_none] at hcon
    rw [hcon] at hvs
    exact Bool.noConfusion hvs
  rw [if_neg (by rw [hany]; exact Bool.false_ne_true)]
  rfl

/-- Witness for C7 (amended): an all-finite 1×2 field with no mask is
returned unchanged (default `Nearest` strategy, true bin projection for a
single azimuth). -/
theorem c7_empty_mask_unchanged_witness :
    (∀ b ∈ (none : Option (List Bool)).getD [], b = false) ∧
    interpolate_polar (fun _ r => [(r : ℚ) + 1 / 2, 0])
      ⟨[1, 2], [some 1, some 2]⟩ none nearestStrategy =
      .ok ⟨[1, 2], [some 1, some 2]⟩ :=
  ⟨by simp,
   c7_empty_mask_unchanged (fun _ r => [(r : ℚ) + 1 / 2, 0])
     ⟨[1, 2], [some 1, some 2]⟩ 1 2 none nearestStrategy ⟨[0], []⟩
     rfl (by decide) (by simp) (by decide)
     (by with_unfolding_all rfl) rfl⟩

theorem flatMap_const_length {α β : Type} {l : List α} {f : α → List β} {m : ℕ}
    (hu : ∀ a ∈ l, (f a).length = m) : (l.flatMap f).length = l.length * m := by
  induction l with
  | nil => simp
  | cons a l ih =>
    rw [List.flatMap_cons, List.length_append, hu a (List.mem_cons_self a l),
      ih (fun x hx => hu x (List.mem_cons_of_mem a hx)), List.length_cons]
    ring

theorem length_polarBins (binCo : ℕ → ℕ → Pt) (na nr : ℕ) :
    (polarBins binCo na nr).length = na * nr := by
  rw [polarBins, flatMap_const_length (m := nr) (fun a _ => by simp)]
  simp

theorem length_deleteIdxAux_eq {α β : Type} (ix : List ℕ) :
    ∀ (n : ℕ) (xs : List α) (ys : List β), xs.length = ys.length →
      (deleteIdxAux ix n xs).length = (deleteIdxAux ix n ys).length := by
  intro n xs
  induction xs generalizing n with
  | nil =>
    intro ys h
    cases ys with
    | nil => rfl
    | cons y ys => exact absurd h (by simp)
  | cons x xs ih =>
    intro ys h
    cases ys with
    | nil => exact absurd h (by simp)
    | cons y ys =>
      have hl : xs.length = ys.length := by simpa using h
      rw [deleteIdxAux, deleteIdxAux]
      split
      · exact ih (n + 1) ys hl
      · simp only [List.length_cons]
        rw [ih (n + 1) ys hl]

theorem length_deleteIdx_eq {α β : Type} {xs : List α} {ys : List β}
    (ix : List ℕ) (h : xs.length = ys.length) :
    (deleteIdx xs ix).length = (deleteIdx ys ix).length :=
  length_deleteIdxAux_eq ix 0 xs ys h

theorem mem_deleteIdxAux {α : Type} {ix : List ℕ} (d : α) :
    ∀ (n j : ℕ) (xs : List α), j < xs.length → (n + j) ∉ ix →
      xs.getD j d ∈ deleteIdxAux ix n xs := by
  intro n j xs
  induction xs generalizing n j with
  | nil => intro h _; exact absurd h (by simp)
  | cons x xs ih =>
    intro hj hn
    cases j with
    | zero =>
      rw [Nat.add_zero] at hn
      rw [List.getD_cons_zero, deleteIdxAux, if_neg hn]
      exact List.mem_cons_self x _
    | succ j =>
      have hrec := ih (n + 1) j (by simpa using hj)
        (by rw [show n + 1 + j = n + (j + 1) by ring]; exact hn)
      rw [List.getD_cons_succ, deleteIdxAux]
      split
      · exact hrec
      · exact List.mem_cons_of_mem x hrec

theorem mem_deleteIdx {α : Type} {xs : List α} {ix : List ℕ} {j : ℕ} (d : α)
    (hj : j < xs.length) (hn : j ∉ ix) :
    xs.getD j d ∈ deleteIdx xs ix :=
  mem_deleteIdxAux d 0 j xs hj (by simpa using hn)

theorem scatterE_ok_of {xs upd : List FVal} {ix : List ℕ}
    (hix : ∀ i ∈ ix, i < xs.length) (hlen : upd.length = ix.length) :
    scatterE xs ix upd =
      .ok ((ix.zip upd).foldl (fun acc p => acc.set p.1 p.2) xs) := by
  rw [scatterE, if_pos, if_pos hlen]
  rw [List.all_eq_true]
  intro i hi
  exact decide_eq_true (hix i hi)

theorem foldl_set_length : ∀ (l : List (ℕ × FVal)) (acc : List FVal),
    (l.foldl (fun acc p => acc.set p.1 p.2) acc).length = acc.length := by
  intro l
  induction l with
  | nil => intro acc; rfl
  | cons p l ih =>
    intro acc
    rw [List.foldl_cons, ih, List.length_set]

theorem foldl_set_some : ∀ (l : List (ℕ × FVal)) (acc : List FVal),
    (∀ p ∈ l, (p.2 : FVal).isSome) →
    (∀ i, i < acc.length → (acc.getD i none).isNone → i ∈ l.map Prod.fst) →
    ∀ v ∈ l.foldl (fun acc p => acc.set p.1 p.2) acc, v.isSome := by
  intro l
  induction l with
  | nil =>
    intro acc _ hcov v hv
    by_contra hcon
    cases v with
    | some a => exact hcon rfl
    | none =>
    rw [List.foldl_nil] at hv
    obtain ⟨i, hi, hveq⟩ := List.getElem_of_mem hv
    have hnone : ((acc.getD i none : FVal)).isNone := by
      rw [List.getD_eq_getElem?_getD, List.getElem?_eq_getElem hi, hveq]
      rfl
    exact absurd (hcov i hi hnone) (List.not_mem_nil i)
  | cons p l ih =>
    intro acc hupd hcov
    rw [List.foldl_cons]
    apply ih (acc.set p.1 p.2)
      (fun q hq => hupd q (List.mem_cons_of_mem p hq))
    intro i hi hnone
    rw [List.length_set] at hi
    rcases Decidable.em (p.1 = i) with heq | hne
    · subst heq
      exfalso
      have hset : ((acc.set p.1 p.2).getD p.1 none : FVal) = p.2 := by
        rw [List.getD_eq_getElem?_getD, List.getElem?_set_self hi,
          Option.getD_some]
      rw [hset] at hnone
      have hs := hupd p (List.mem_cons_self p l)
      rw [Option.isNone_iff_eq_none] at hnone
      rw [hnone] at hs
      exact Bool.noConfusion hs
    · have hset : ((acc.set p.1 p.2).getD i none : FVal) = acc.getD i none := by
        rw [List.getD_eq_getElem?_getD, List.getElem?_set_ne hne,
          List.getD_eq_getElem?_getD]
      rw [hset] at hnone
      have hmem := hcov i hi hnone
      rw [List.map_cons] at hmem
      rcases List.mem_cons.1 hmem with h1 | h1
      · exact absurd h1.symm hne
      · exact h1

theorem getD_mem_of_lt {α : Type} {l : List α} {i : ℕ} (d : α)
    (hi : i < l.length) : l.getD i d ∈ l := by
  rw [List.getD_eq_getElem?_getD, List.getElem?_eq_getElem hi,
    Option.getD_some]
  exact List.getElem_mem hi

theorem nearestRun_rank1 {srcR trg2 : List Pt} {vals : NDArray}
    (hsrc : srcR ≠ []) (hsh : vals.shape = [srcR.length])
    (hw : vals.data.length = vals.shape.prod) :
    nearestStrategy.run srcR trg2 vals =
      .ok ⟨[(nearestInit srcR trg2).ix.length],
        (nearestInit srcR trg2).ix.map (fun i => vals.data.getD i none)⟩ := by
  have hb : ∀ i ∈ (nearestInit srcR trg2).ix, i < srcR.length :=
    nearestInit_ix_bound hsrc
  have hfr := fancyRows_ok hsh hb
  have hflat := flatMap_getRow_rank1 hsh hw hb
  obtain ⟨s, dta⟩ := vals
  simp only at hsh hw hflat
  subst hsh
  show nearestCall (nearestInit srcR trg2) ⟨[srcR.length], dta⟩ none = _
  simp only [nearestCall]
  rw [if_pos (show srcR.length = (nearestInit srcR trg2).numsources from rfl),
    hfr, ok_bind, hflat]
  rfl

theorem interpolate_nearest_finite {srcC : List Pt} {vlist : List FVal}
    (trg2 : List Pt) (hlen : srcC.length = vlist.length)
    (hsome : ∃ v ∈ vlist, v.isSome) :
    ∃ r2, interpolate srcC trg2 ⟨[vlist.length], vlist⟩ nearestStrategy =
        .ok r2 ∧
      r2.data.length = trg2.length ∧ ∀ v ∈ r2.data, v.isSome := by
  have hne : (List.range vlist.length).filter
      (fun i => ((vlist.getD i none : FVal)).isSome) ≠ [] := by
    obtain ⟨v, hv, hvs⟩ := hsome
    obtain ⟨i, hi, hieq⟩ := List.getElem_of_mem hv
    intro hcon
    rw [List.filter_eq_nil_iff] at hcon
    refine hcon i (List.mem_range.2 hi) ?_
    rw [List.getD_eq_getElem?_getD, List.getElem?_eq_getElem hi,
      Option.getD_some, hieq]
    exact hvs
  set ixv := (List.range vlist.length).filter
    (fun i => ((vlist.getD i none : FVal)).isSome) with hixv
  have hib : ∀ i ∈ ixv, i < vlist.length :=
    fun i hi => List.mem_range.1 (List.mem_filter.1 hi).1
  have hgat : gatherE srcC ixv =
      .ok (ixv.map (fun i => srcC.getD i default)) := by
    rw [gatherE, if_pos]
    rw [List.all_eq_true]
    intro i hi
    exact decide_eq_true (hlen ▸ hib i hi)
  set srcR := ixv.map (fun i => srcC.getD i default) with hsrcR
  have hsrcne : srcR ≠ [] := by
    intro hcon
    exact hne (List.map_eq_nil_iff.1 (hsrcR ▸ hcon))
  have hsl : ixv.length = srcR.length := by rw [hsrcR, List.length_map]
  have hvsome : ∀ v ∈ ixv.map (fun i => (vlist.getD i none : FVal)),
      v.isSome := by
    intro v hv
    obtain ⟨i, hi, rfl⟩ := List.mem_map.1 hv
    exact (List.mem_filter.1 hi).2
  have hrun := @nearestRun_rank1 srcR trg2 _ hsrcne
    (show (⟨[ixv.length], ixv.map (fun i => (vlist.getD i none : FVal))⟩ :
      NDArray).shape = [srcR.length] by rw [hsl])
    (by simp)
  refine ⟨⟨[(nearestInit srcR trg2).ix.length],
    (nearestInit srcR trg2).ix.map
      (fun i => ((ixv.map (fun j => (vlist.getD j none : FVal))).getD i
        none))⟩, ?_, ?_, ?_⟩
  · show ((gatherE srcC ixv : Except String (List Pt)) >>= fun s2 =>
      nearestStrategy.run s2 trg2
        ⟨[ixv.length], ixv.map (fun i => vlist.getD i none)⟩) = _
    rw [hgat, ok_bind, hrun]
  · rw [List.length_map, (nearestInit_lengths srcR trg2).2]
  · intro v hv
    obtain ⟨i, hi, rfl⟩ := List.mem_map.1 hv
    have hil : i < (ixv.map (fun j => (vlist.getD j none : FVal))).length := by
      rw [List.length_map, hsl]
      exact nearestInit_ix_bound hsrcne i hi
    exact hvsome _ (getD_mem_of_lt none hil)

/-- Claim C3 (amended): provided at least one unmasked bin holds a finite
value, `interpolate_polar` returns a finite-valued field of the input's
shape: every entry that the first interpolation pass leaves non-finite is
overwritten by the `Nearest` fallback pass, whose sources — the unmasked
bins — contain a finite value, so the fallback itself cannot fail and its
output is everywhere finite.  (Taken literally, the claim fails: an
all-masked field makes the first pass raise `IndexError` on an empty
coordinate array — see the counterexample.)  The first pass is abstracted
by the hypothesis that the chosen strategy returns one value per masked
bin, which the bundled strategies do on conforming data. -/
theorem c3_polar_fill_complete
    (binCo : ℕ → ℕ → Pt) (data : NDArray) (na nr : ℕ)
    (mask : Option (List Bool)) (strat : Strategy) (fr : NDArray)
    (hsh : data.shape = [na, nr]) (hna : 0 < na)
    (hw : data.data.length = na * nr)
    (hgood : ∃ j, j < na * nr ∧
      (effMask mask (na * nr)).getD j false = false ∧
      ((data.data.getD j none : FVal)).isSome)
    (hstrat : interpolate
        (deleteIdx (polarBins binCo na nr)
          (clutterIx (effMask mask (na * nr)) (na * nr)))
        ((clutterIx (effMask mask (na * nr)) (na * nr)).map
          (fun i => (polarBins binCo na nr).getD i default))
        ⟨[(deleteIdx data.data
            (clutterIx (effMask mask (na * nr)) (na * nr))).length],
          deleteIdx data.data
            (clutterIx (effMask mask (na * nr)) (na * nr))⟩
        strat = .ok fr)
    (hfr : fr.data.length =
      (clutterIx (effMask mask (na * nr)) (na * nr)).length) :
    ∃ out, interpolate_polar binCo data mask strat = .ok out ∧
      out.shape = [na, nr] ∧ ∀ v ∈ out.data, v.isSome := by
  obtain ⟨s, dta⟩ := data
  simp only at hsh hw hgood hstrat hfr
  subst hsh
  simp only [interpolate_polar]
  rw [if_neg (Nat.pos_iff_ne_zero.1 hna)]
  set m := effMask mask (na * nr) with hmdef
  set C := clutterIx m (na * nr) with hCdef
  set bins := polarBins binCo na nr with hbinsdef
  have hbl : bins.length = na * nr := length_polarBins binCo na nr
  have hCb : ∀ i ∈ C, i < na * nr :=
    fun i hi => List.mem_range.1 (List.mem_filter.1 hi).1
  have hgat : gatherE bins C = .ok (C.map (fun i => bins.getD i default)) := by
    rw [gatherE, if_pos]
    rw [List.all_eq_true]
    intro i hi
    exact decide_eq_true (hbl ▸ hCb i hi)
  rw [hgat, ok_bind, hstrat, ok_bind]
  have hCd : ∀ i ∈ C, i < dta.length := fun i hi => hw ▸ hCb i hi
  rw [scatterE_ok_of hCd hfr, ok_bind]
  set filled := (C.zip fr.data).foldl (fun acc p => acc.set p.1 p.2) dta
    with hfilldef
  have hfl : filled.length = dta.length := foldl_set_length _ _
  cases hAny : filled.any (fun v => v.isNone) with
  | false =>
    rw [if_neg Bool.false_ne_true]
    refine ⟨⟨[na, nr], filled⟩, rfl, rfl, ?_⟩
    intro v hv
    have hnot := List.any_eq_false.1 hAny v hv
    cases v with
    | some q => rfl
    | none => exact absurd rfl hnot
  | true =>
    rw [if_pos rfl]
    have hnb : ∀ i ∈ nanPositions filled, i < filled.length :=
      fun i hi => List.mem_range.1 (List.mem_filter.1 hi).1
    have hgat2 : gatherE bins (nanPositions filled) =
        .ok ((nanPositions filled).map (fun i => bins.getD i default)) := by
      rw [gatherE, if_pos]
      rw [List.all_eq_true]
      intro i hi
      have := hnb i hi
      rw [hfl, hw] at this
      exact decide_eq_true (hbl ▸ this)
    rw [hgat2, ok_bind]
    have hdlen : (deleteIdx bins C).length = (deleteIdx dta C).length :=
      length_deleteIdx_eq C (hbl.trans hw.symm)
    have hsome2 : ∃ v ∈ deleteIdx dta C, v.isSome := by
      obtain ⟨j, hj, hmf, hjs⟩ := hgood
      refine ⟨dta.getD j none, ?_, hjs⟩
      have hjC : j ∉ C := by
        intro hcon
        have hpred := (List.mem_filter.1 hcon).2
        rw [hmdef] at hmf
        rw [hmf] at hpred
        exact Bool.noConfusion hpred
      exact mem_deleteIdx none (hw ▸ hj) hjC
    obtain ⟨r2, hr2, hr2len, hr2some⟩ :=
      interpolate_nearest_finite
        ((nanPositions filled).map (fun i => bins.getD i default))
        hdlen hsome2
    rw [hr2, ok_bind]
    have hfb : ∀ i ∈ nanPositions filled, i < filled.length := hnb
    have hflen2 : r2.data.length = (nanPositions filled).length := by
      rw [hr2len, List.length_map]
    rw [scatterE_ok_of hfb hflen2, ok_bind]
    refine ⟨_, rfl, rfl, ?_⟩
    apply foldl_set_some
    · intro p hp
      exact hr2some p.2 (List.of_mem_zip hp).2
    · intro i hi hnone
      rw [List.map_fst_zip _ _ (by rw [hflen2])]
      exact List.mem_filter.2 ⟨List.mem_range.2 hi, hnone⟩

/-- Witness for C3 (amended): a 1×2 field with a NaN at the first bin and a
finite value at the second, no mask: the fallback pass fills the NaN from
the finite bin, yielding an all-finite field of the input's shape. -/
theorem c3_polar_fill_complete_witness :
    (0 < 1) ∧
    ∃ out, interpolate_polar (fun _ r => [(r : ℚ) + 1 / 2, 0])
        ⟨[1, 2], [none, some 5]⟩ none nearestStrategy = .ok out ∧
      out.shape = [1, 2] ∧ ∀ v ∈ out.data, v.isSome :=
  ⟨by decide,
   c3_polar_fill_complete (fun _ r => [(r : ℚ) + 1 / 2, 0])
     ⟨[1, 2], [none, some 5]⟩ 1 2 none nearestStrategy ⟨[0], []⟩
     rfl (by decide) (by decide)
     ⟨1, by decide, by decide, rfl⟩
     (by with_unfolding_all rfl) rfl⟩
